import Mathlib

/-!
# Verification of the indexed multi-column filter engine

Shallow embedding of the filtering engine of the `amazon-filter-system`
repository (`src/utils/UltraFastFilterManager.ts`, `src/utils/filterLogic.ts`
and related filter-manager variants), together with proofs and refutations of
its specified properties.

Modelling conventions:
* A JavaScript scalar cell value (`number | string`) is `JSValue`; the
  repository's rows hold integer ids and text fields, so JS numbers are
  modelled as `Int`.
* A row (a JS object) is an insertion-ordered association list
  `List (String × JSValue)`; `row[c]` on a missing key is JS `undefined`,
  whose `String(...)` coercion is `"undefined"` and whose `Number(...)`
  coercion is `NaN` (modelled as `none`).
* A JS `Set<number>` is an insertion-ordered duplicate-free `List Nat`
  (`setAdd` models `Set.add`); a JS `Map` is an insertion-ordered
  association list, mirroring JS Map iteration order.
* JS `Number(s)` string coercion is modelled for optionally signed decimal
  integer literals (the value domain of this code base); other strings are
  treated as `NaN` (`none`).
* JS string comparison (`<`, `localeCompare` and default `Array.sort`) is
  modelled by code-unit lexicographic order `charListLe`; for the basic
  multilingual plane this equals code-point order.
* `Array.prototype.sort(cmp)` is modelled as the stable insertion sort
  `jsSortBy` with `le a b := cmp a b ≤ 0`; this matches V8's stable sort on
  the short arrays involved and, for consistent comparators, any stable sort.
-/

set_option autoImplicit false

namespace FilterEngine

/-- A JavaScript scalar cell value: a number or a string. -/
inductive JSValue where
  | num (n : Int)
  | str (s : String)
deriving DecidableEq, Repr

/-- JS `String(v)` coercion of a cell value. -/
def JSValue.toStr : JSValue → String
  | .num n => toString n
  | .str s => s

/-- Decimal digit test. -/
def isDigitCh (c : Char) : Bool := decide ('0' ≤ c) && decide (c ≤ '9')

/-- Accumulating decimal-digit parser: `none` on the first non-digit. -/
def digitsValGo (acc : Nat) : List Char → Option Nat
  | [] => some acc
  | c :: cs => if isDigitCh c then digitsValGo (acc * 10 + (c.toNat - 48)) cs else none

/-- Parse a non-empty all-digit string; `none` otherwise. -/
def digitsVal : List Char → Option Nat
  | [] => none
  | c :: cs => digitsValGo 0 (c :: cs)

/-- JS `Number(s)` for strings, modelled on optionally signed decimal integer
literals: surrounding spaces are trimmed, the empty (or all-space) string
coerces to `0`, and any other non-integer-literal string is `NaN` (`none`). -/
def jsStrToNum (s : String) : Option Int :=
  let cs := ((s.toList.dropWhile (· = ' ')).reverse.dropWhile (· = ' ')).reverse
  match cs with
  | [] => some (0 : Int)
  | '-' :: rest => (digitsVal rest).map (fun n => -(n : Int))
  | '+' :: rest => (digitsVal rest).map (fun n => (n : Int))
  | _ => (digitsVal cs).map (fun n => (n : Int))

/-- JS `Number(v)` on a cell value (`none` models `NaN`). -/
def JSValue.toNum : JSValue → Option Int
  | .num n => some n
  | .str s => jsStrToNum s

/-- A row: a JS object, i.e. an insertion-ordered record of named scalar fields. -/
abbrev Row := List (String × JSValue)

/-- JS `row[c]`: the value of the first field named `c`, if any. -/
def rowGet (r : Row) (c : String) : Option JSValue :=
  (r.find? (fun p => p.1 == c)).map (·.2)

/-- JS `String(row[c])` (missing field: `String(undefined) = "undefined"`). -/
def rowStr (r : Row) (c : String) : String :=
  match rowGet r c with
  | some v => v.toStr
  | none => "undefined"

/-- JS `Number(row[c])` (`none` models `NaN`, including the missing-field case). -/
def rowNum (r : Row) (c : String) : Option Int :=
  match rowGet r c with
  | some v => v.toNum
  | none => none

/-- The key list of a row. -/
def rowKeys (r : Row) : List String := r.map Prod.fst

/-! ## Inverted index structures

`UltraFastFilterManager.dataIndex : Map<string, Map<string, Set<number>>>`:
per column, a map from stringified value to the set of row positions. -/

/-- A JS `Set<number>`: insertion-ordered, duplicate-free. -/
abbrev PosSet := List Nat

/-- One column's inverted index: stringified value → positions, in insertion order. -/
abbrev ColIndex := List (String × PosSet)

/-- The whole data index: column → per-column inverted index, in insertion order. -/
abbrev DataIndex := List (String × ColIndex)

/-- JS `Set.add`: append if not already present. -/
def setAdd (s : PosSet) (i : Nat) : PosSet := if i ∈ s then s else s ++ [i]

/-- Insert position `i` under value `v` into a column index
(`if (!columnIndex.has(value)) columnIndex.set(value, new Set()); columnIndex.get(value)!.add(index)`). -/
def ciAdd : ColIndex → String → Nat → ColIndex
  | [], v, i => [(v, [i])]
  | (v', s) :: rest, v, i =>
    if v' = v then (v', setAdd s i) :: rest else (v', s) :: ciAdd rest v i

/-- Insert position `i` under column `c`, value `v` into the data index. -/
def diAdd : DataIndex → String → String → Nat → DataIndex
  | [], c, v, i => [(c, ciAdd [] v i)]
  | (c', ci) :: rest, c, v, i =>
    if c' = c then (c', ciAdd ci v i) :: rest else (c', ci) :: diAdd rest c v i

/-- JS `columnIndex.get(v)`: first (unique) entry with key `v`. -/
def ciGet : ColIndex → String → Option PosSet
  | [], _ => none
  | (v', s) :: rest, v => if v' = v then some s else ciGet rest v

/-- JS `dataIndex.get(c)`: first (unique) entry with key `c`. -/
def diGet : DataIndex → String → Option ColIndex
  | [], _ => none
  | (c', ci) :: rest, c => if c' = c then some ci else diGet rest c

/-- The position set for value `v` in column index `ci` (`∅` when absent). -/
def ciPos (ci : ColIndex) (v : String) : PosSet := (ciGet ci v).getD []

/-- The position set stored under `(c, v)` (`∅` when either level is absent):
`dataIndex.get(c)?.get(v)` with a `new Set()` default. -/
def lookupPositions (di : DataIndex) (c v : String) : PosSet :=
  ((diGet di c).map (fun ci => ciPos ci v)).getD []

/-! ### `createUltraFastIndexes` (UltraFastFilterManager, lines 39–57)

```js
this.data.forEach((row, index) => {
  Object.keys(row).forEach(column => {
    const value = String(row[column]); ... columnIndex.get(value)!.add(index);
  });
});
``` -/

/-- Index a single row at global position `idx`: iterate the row's keys and add
`(column, String(row[column]), idx)`. -/
def indexRow (di : DataIndex) (r : Row) (idx : Nat) : DataIndex :=
  (rowKeys r).foldl (fun di c => diAdd di c (rowStr r c) idx) di

/-- Index the rows of `data`, positions starting at `idx`. -/
def indexRowsFrom : List Row → Nat → DataIndex → DataIndex
  | [], _, di => di
  | r :: rest, idx, di => indexRowsFrom rest (idx + 1) (indexRow di r idx)

/-- `UltraFastFilterManager.createUltraFastIndexes`: the full inverted index of a
dataset, built by a single pass over the rows. -/
def createUltraFastIndexes (data : List Row) : DataIndex := indexRowsFrom data 0 []

/-! ### Membership characterization of the index -/

theorem mem_setAdd {s : PosSet} {i j : Nat} : j ∈ setAdd s i ↔ j ∈ s ∨ j = i := by
  by_cases h : i ∈ s
  · simp only [setAdd, if_pos h]
    constructor
    · exact Or.inl
    · rintro (hj | rfl)
      · exact hj
      · exact h
  · simp [setAdd, if_neg h]

theorem setAdd_nodup {s : PosSet} (h : s.Nodup) (i : Nat) : (setAdd s i).Nodup := by
  simp only [setAdd]
  split
  · exact h
  · simpa [List.nodup_append] using ⟨h, by assumption⟩

theorem ciPos_nil {w : String} : ciPos [] w = [] := rfl

theorem ciPos_cons {v' : String} {s : PosSet} {rest : ColIndex} {w : String} :
    ciPos ((v', s) :: rest) w = if v' = w then s else ciPos rest w := by
  simp only [ciPos, ciGet]
  split <;> rfl

theorem lookupPositions_nil {c w : String} : lookupPositions [] c w = [] := rfl

theorem lookupPositions_cons {c₀ : String} {ci : ColIndex} {rest : DataIndex} {c w : String} :
    lookupPositions ((c₀, ci) :: rest) c w =
      if c₀ = c then ciPos ci w else lookupPositions rest c w := by
  simp only [lookupPositions, diGet]
  split <;> rfl

theorem mem_ciPos_ciAdd {ci : ColIndex} {v w : String} {i j : Nat} :
    j ∈ ciPos (ciAdd ci v i) w ↔ j ∈ ciPos ci w ∨ (w = v ∧ j = i) := by
  induction ci with
  | nil =>
    by_cases hw : v = w
    · subst hw
      simp [ciAdd, ciPos_cons, ciPos_nil]
    · simp [ciAdd, ciPos_cons, ciPos_nil, hw, show w ≠ v from fun h => hw h.symm]
  | cons p rest ih =>
    obtain ⟨v', s⟩ := p
    by_cases hv : v' = v
    · subst hv
      by_cases hw : v' = w
      · subst hw
        simp [ciAdd, ciPos_cons, mem_setAdd]
      · simp [ciAdd, ciPos_cons, hw, show w ≠ v' from fun h => hw h.symm]
    · by_cases hw : v' = w
      · subst hw
        simp [ciAdd, hv, ciPos_cons, show v' ≠ v from hv,
          show ¬(v = v' ∧ j = i) from fun h => hv h.1.symm]
      · simpa [ciAdd, hv, ciPos_cons, hw] using ih

theorem mem_lookup_diAdd {di : DataIndex} {c c' v w : String} {i j : Nat} :
    j ∈ lookupPositions (diAdd di c v i) c' w ↔
      j ∈ lookupPositions di c' w ∨ (c' = c ∧ w = v ∧ j = i) := by
  induction di with
  | nil =>
    by_cases hc : c = c'
    · subst hc
      simpa [diAdd, lookupPositions_cons, lookupPositions_nil, ciPos_nil] using
        @mem_ciPos_ciAdd [] v w i j
    · simp [diAdd, lookupPositions_cons, lookupPositions_nil, hc,
        show ¬(c' = c ∧ w = v ∧ j = i) from fun h => hc h.1.symm]
  | cons p rest ih =>
    obtain ⟨c₀, ci⟩ := p
    by_cases h0 : c₀ = c
    · subst h0
      rw [show diAdd ((c₀, ci) :: rest) c₀ v i = (c₀, ciAdd ci v i) :: rest
          from by simp [diAdd]]
      by_cases hc : c₀ = c'
      · subst hc
        rw [lookupPositions_cons, lookupPositions_cons, if_pos rfl, if_pos rfl]
        simpa using @mem_ciPos_ciAdd ci v w i j
      · rw [lookupPositions_cons, lookupPositions_cons, if_neg hc, if_neg hc]
        simp [show ¬(c' = c₀ ∧ w = v ∧ j = i) from fun h => hc h.1.symm]
    · rw [show diAdd ((c₀, ci) :: rest) c v i = (c₀, ci) :: diAdd rest c v i
          from by simp [diAdd, h0]]
      by_cases hc : c₀ = c'
      · subst hc
        rw [lookupPositions_cons, lookupPositions_cons, if_pos rfl, if_pos rfl]
        simp [show ¬(c₀ = c ∧ w = v ∧ j = i) from fun h => h0 h.1]
      · rw [lookupPositions_cons, lookupPositions_cons, if_neg hc, if_neg hc]
        exact ih

theorem mem_lookup_foldl_keys {r : Row} {idx j : Nat} {c w : String} :
    ∀ (ks : List String) (di : DataIndex),
    (j ∈ lookupPositions (ks.foldl (fun di c => diAdd di c (rowStr r c) idx) di) c w ↔
      j ∈ lookupPositions di c w ∨ (c ∈ ks ∧ rowStr r c = w ∧ j = idx)) := by
  intro ks
  induction ks with
  | nil => simp
  | cons k rest ih =>
    intro di
    rw [List.foldl_cons, ih, mem_lookup_diAdd]
    constructor
    · rintro (⟨h | ⟨rfl, rfl, rfl⟩⟩ | ⟨hk, hv, hj⟩)
      · exact Or.inl h
      · exact Or.inr ⟨List.mem_cons_self _ _, rfl, rfl⟩
      · exact Or.inr ⟨List.mem_cons_of_mem _ hk, hv, hj⟩
    · rintro (h | ⟨hk, hv, hj⟩)
      · exact Or.inl (Or.inl h)
      · rcases List.mem_cons.mp hk with rfl | hk
        · exact Or.inl (Or.inr ⟨rfl, hv.symm, hj⟩)
        · exact Or.inr ⟨hk, hv, hj⟩

theorem mem_lookup_indexRow {di : DataIndex} {r : Row} {idx j : Nat} {c w : String} :
    j ∈ lookupPositions (indexRow di r idx) c w ↔
      j ∈ lookupPositions di c w ∨ (c ∈ rowKeys r ∧ rowStr r c = w ∧ j = idx) :=
  mem_lookup_foldl_keys (rowKeys r) di

theorem mem_lookup_indexRowsFrom {c w : String} {j : Nat} :
    ∀ (data : List Row) (idx : Nat) (di : DataIndex),
    (j ∈ lookupPositions (indexRowsFrom data idx di) c w ↔
      j ∈ lookupPositions di c w ∨
        ∃ k r, data.get? k = some r ∧ j = idx + k ∧ c ∈ rowKeys r ∧ rowStr r c = w) := by
  intro data
  induction data with
  | nil => simp [indexRowsFrom]
  | cons r rest ih =>
    intro idx di
    rw [indexRowsFrom, ih, mem_lookup_indexRow]
    constructor
    · rintro (⟨h | ⟨hk, hv, rfl⟩⟩ | ⟨k, r', hget, rfl, hk, hv⟩)
      · exact Or.inl h
      · exact Or.inr ⟨0, r, rfl, by omega, hk, hv⟩
      · exact Or.inr ⟨k + 1, r', by simpa using hget, by omega, hk, hv⟩
    · rintro (h | ⟨k, r', hget, rfl, hk, hv⟩)
      · exact Or.inl (Or.inl h)
      · cases k with
        | zero =>
          obtain rfl : r' = r := by simpa [eq_comm] using hget
          exact Or.inl (Or.inr ⟨hk, hv, by omega⟩)
        | succ k =>
          refine Or.inr ⟨k, r', by simpa using hget, by omega, hk, hv⟩

theorem mem_lookup_createUltraFastIndexes {data : List Row} {c w : String} {j : Nat} :
    j ∈ lookupPositions (createUltraFastIndexes data) c w ↔
      ∃ r, data.get? j = some r ∧ c ∈ rowKeys r ∧ rowStr r c = w := by
  rw [createUltraFastIndexes, mem_lookup_indexRowsFrom]
  simp only [lookupPositions, diGet, Option.map, Option.getD, List.not_mem_nil, false_or,
    zero_add]
  constructor
  · rintro ⟨k, r, hget, rfl, hk, hv⟩
    exact ⟨r, hget, hk, hv⟩
  · rintro ⟨r, hget, hk, hv⟩
    exact ⟨j, r, hget, rfl, hk, hv⟩

theorem lt_length_of_mem_lookup_createUltraFastIndexes {data : List Row} {c w : String}
    {j : Nat} (h : j ∈ lookupPositions (createUltraFastIndexes data) c w) :
    j < data.length := by
  obtain ⟨r, hget, -⟩ := mem_lookup_createUltraFastIndexes.mp h
  exact List.get?_eq_some.mp hget |>.1

/-! ## Filter states

`FilterState : Record<string, string[]>` — a JS object mapping column names to
selected values, modelled as an insertion-ordered association list
(`Object.entries` order). -/

/-- A filter state, in `Object.entries` order. -/
abbrev FilterState := List (String × List String)

/-- The key list of a filter state. -/
def fsKeys (F : FilterState) : List String := F.map Prod.fst

/-- JS `{ ...obj, [c]: vs }`: replace in place when the key exists, else append. -/
def objSet (F : FilterState) (c : String) (vs : List String) : FilterState :=
  if c ∈ fsKeys F then F.map (fun e => if e.1 = c then (c, vs) else e)
  else F ++ [(c, vs)]

/-- JS `delete obj[c]` (on a fresh copy): drop every entry keyed `c`. -/
def objDelete (F : FilterState) (c : String) : FilterState :=
  F.filter (fun e => !(e.1 == c))

/-- `filterLogic.updateFilterState` (lines 365–380): an empty selection removes
the key, a non-empty one sets it. -/
def updateFilterState (F : FilterState) (c : String) (vs : List String) : FilterState :=
  if vs.isEmpty then objDelete F c else objSet F c vs

/-- `filterLogic.clearFilter` (lines 384–391). -/
def clearFilter (F : FilterState) (c : String) : FilterState := objDelete F c

/-- The active entries of a filter state — those with a non-empty selection
list — as computed by `Object.entries(filters).filter(([, values]) => values.length > 0)`. -/
def activeEntries (F : FilterState) : FilterState :=
  F.filter (fun e => !e.2.isEmpty)

/-! ## The naive brute-force scan (plain `applyFilters` variant)

```js
export const applyFilters = (data, filters) =>
  data.filter(row => Object.entries(filters).every(([column, selectedValues]) => {
    if (selectedValues.length === 0) return true;
    return selectedValues.includes(String(row[column]));
  }));
``` -/

/-- A row passes a filter state: every column with a non-empty selection list
has the row's stringified value among the selected values. -/
def rowMatches (filters : FilterState) (r : Row) : Bool :=
  filters.all (fun f => f.2.isEmpty || f.2.contains (rowStr r f.1))

/-- The naive brute-force scan: the rows passing the filter state, in order. -/
def applyFiltersNaive (data : List Row) (filters : FilterState) : List Row :=
  data.filter (rowMatches filters)

/-- The positions of the rows accepted by the naive brute-force scan. -/
def acceptedPositions (data : List Row) (filters : FilterState) : PosSet :=
  (List.range data.length).filter (fun i => rowMatches filters (data.getD i []))

/-! ## `UltraFastFilterManager.getMatchingIndices` (lines 291–347) -/

/-- The hardcoded numeric columns of `UltraFastFilterManager`
(`private numericColumns = new Set(['id', 'number'])`). -/
def numericColumns : List String := ["id", "number"]

/-- JS `value.includes('-')`. -/
def containsDash (value : String) : Bool := value.toList.contains '-'

/-- JS `s.split(sep)` for a single-character separator, on char lists. -/
def splitChars (sep : Char) : List Char → List (List Char)
  | [] => [[]]
  | c :: cs =>
    match splitChars sep cs with
    | [] => [[c]]
    | h :: t => if c = sep then [] :: h :: t else (c :: h) :: t

/-- JS `s.split(sep)` for a single-character separator. -/
def jsSplit (s : String) (sep : Char) : List String :=
  (splitChars sep s.toList).map (fun l => String.mk l)

/-- Range test `rowValue >= start && rowValue <= end`; any comparison involving
`NaN` (`none`) is false, as in JS. -/
def numRangeHit (lo hi x : Option Int) : Bool :=
  match lo, hi, x with
  | some a, some b, some v => decide (a ≤ v) && decide (v ≤ b)
  | _, _, _ => false

/-- Equality test `Number(row[column]) === targetValue`; false on `NaN`. -/
def numEqHit (target x : Option Int) : Bool :=
  match target, x with
  | some t, some v => decide (v = t)
  | _, _ => false

/-- `UltraFastFilterManager.getNumericMatchingIndices` (lines 349–373): scan the
whole dataset; a value containing `'-'` is a `start-end` range
(`const [start, end] = value.split('-').map(Number)`), otherwise a single
numeric value compared with `===`. -/
def getNumericMatchingIndices (data : List Row) (column : String) (value : String) : PosSet :=
  if containsDash value then
    let nums := (jsSplit value '-').map jsStrToNum
    let lo := nums.getD 0 none
    let hi := nums.getD 1 none
    (List.range data.length).filter (fun i => numRangeHit lo hi (rowNum (data.getD i []) column))
  else
    (List.range data.length).filter
      (fun i => numEqHit (jsStrToNum value) (rowNum (data.getD i []) column))

/-- Candidate positions of one `(column, value)` pair inside
`getMatchingIndices`: numeric columns go through `getNumericMatchingIndices`,
other columns through the inverted index (empty set when absent). -/
def indicesFor (data : List Row) (di : DataIndex) (column value : String) : PosSet :=
  if column ∈ numericColumns then getNumericMatchingIndices data column value
  else lookupPositions di column value

/-- First-filter union (lines 297–313): add every candidate position of each
selected value into the running set. -/
def unionValues (data : List Row) (di : DataIndex) (column : String)
    (values : List String) (acc : PosSet) : PosSet :=
  values.foldl (fun acc v => (indicesFor data di column v).foldl setAdd acc) acc

/-- Subsequent-filter step (lines 316–338): among the candidate positions of the
selected values, keep those already in `matching`, building a fresh set. -/
def intersectStep (data : List Row) (di : DataIndex) (matching : PosSet)
    (column : String) (values : List String) : PosSet :=
  values.foldl
    (fun acc v =>
      (indicesFor data di column v).foldl
        (fun acc i => if i ∈ matching then setAdd acc i else acc) acc)
    []

/-- The loop over the remaining filters, with the early exit on an empty
running set (lines 316–344). -/
def matchRest (data : List Row) (di : DataIndex) : PosSet → FilterState → PosSet
  | matching, [] => matching
  | matching, (c, vs) :: rest =>
    let m := intersectStep data di matching c vs
    if m.length = 0 then m else matchRest data di m rest

/-- `UltraFastFilterManager.getMatchingIndices`: no filters — every position;
otherwise union the first filter's value sets, then intersect the rest in
order. -/
def getMatchingIndices (data : List Row) (di : DataIndex) : FilterState → PosSet
  | [] => List.range data.length
  | (c, vs) :: rest => matchRest data di (unionValues data di c vs []) rest

/-! ## `OptimizedFilterManager.buildIndex` (lines 469–485), per column

```js
data.forEach((row, localIndex) => {
  const globalIndex = startIndex + localIndex;
  const value = String(row[column]);
  ... columnIndex.get(value)!.add(globalIndex);
});
``` -/

/-- The indexing loop of `buildIndex`, positions offset by `idx`. -/
def buildIndexFrom (column : String) : List Row → Nat → ColIndex → ColIndex
  | [], _, ci => ci
  | r :: rest, idx, ci => buildIndexFrom column rest (idx + 1) (ciAdd ci (rowStr r column) idx)

/-- `OptimizedFilterManager.buildIndex`, restricted to the one column index it
mutates: merge a chunk of rows into the column's inverted index, global
positions starting at `startIndex`. -/
def buildIndex (ci : ColIndex) (column : String) (data : List Row) (startIndex : Nat) : ColIndex :=
  buildIndexFrom column data startIndex ci

/-! ## Membership characterization of the evaluator -/

theorem mem_foldl_setAdd {l acc : List Nat} {j : Nat} :
    j ∈ l.foldl setAdd acc ↔ j ∈ acc ∨ j ∈ l := by
  induction l generalizing acc with
  | nil => simp
  | cons i rest ih =>
    rw [List.foldl_cons, ih]
    simp [mem_setAdd]
    tauto

theorem nodup_foldl_setAdd {l acc : List Nat} (h : acc.Nodup) :
    (l.foldl setAdd acc).Nodup := by
  induction l generalizing acc with
  | nil => exact h
  | cons i rest ih => exact ih (setAdd_nodup h i)

theorem mem_foldl_condAdd {l acc m : List Nat} {j : Nat} :
    j ∈ l.foldl (fun acc i => if i ∈ m then setAdd acc i else acc) acc ↔
      j ∈ acc ∨ (j ∈ l ∧ j ∈ m) := by
  induction l generalizing acc with
  | nil => simp
  | cons i rest ih =>
    rw [List.foldl_cons, ih]
    by_cases him : i ∈ m
    · simp only [if_pos him, mem_setAdd]
      constructor
      · rintro ((h | rfl) | h)
        · exact Or.inl h
        · exact Or.inr ⟨List.mem_cons_self _ _, him⟩
        · exact Or.inr ⟨List.mem_cons_of_mem _ h.1, h.2⟩
      · rintro (h | ⟨hj, hm⟩)
        · exact Or.inl (Or.inl h)
        · rcases List.mem_cons.mp hj with rfl | hj
          · exact Or.inl (Or.inr rfl)
          · exact Or.inr ⟨hj, hm⟩
    · simp only [if_neg him]
      constructor
      · rintro (h | h)
        · exact Or.inl h
        · exact Or.inr ⟨List.mem_cons_of_mem _ h.1, h.2⟩
      · rintro (h | ⟨hj, hm⟩)
        · exact Or.inl h
        · rcases List.mem_cons.mp hj with rfl | hj
          · exact absurd hm him
          · exact Or.inr ⟨hj, hm⟩

theorem nodup_foldl_condAdd {l acc m : List Nat} (h : acc.Nodup) :
    (l.foldl (fun acc i => if i ∈ m then setAdd acc i else acc) acc).Nodup := by
  induction l generalizing acc with
  | nil => exact h
  | cons i rest ih =>
    rw [List.foldl_cons]
    split
    · exact ih (setAdd_nodup h i)
    · exact ih h

theorem mem_unionValues {data : List Row} {di : DataIndex} {c : String}
    {vs : List String} {acc : PosSet} {j : Nat} :
    j ∈ unionValues data di c vs acc ↔
      j ∈ acc ∨ ∃ v ∈ vs, j ∈ indicesFor data di c v := by
  induction vs generalizing acc with
  | nil => simp [unionValues]
  | cons v rest ih =>
    rw [unionValues, List.foldl_cons]
    rw [show rest.foldl (fun acc v => (indicesFor data di c v).foldl setAdd acc)
        ((indicesFor data di c v).foldl setAdd acc) =
        unionValues data di c rest ((indicesFor data di c v).foldl setAdd acc) from rfl,
      ih, mem_foldl_setAdd]
    simp only [List.mem_cons]
    constructor
    · rintro ((h | h) | ⟨w, hw, h⟩)
      · exact Or.inl h
      · exact Or.inr ⟨v, Or.inl rfl, h⟩
      · exact Or.inr ⟨w, Or.inr hw, h⟩
    · rintro (h | ⟨w, rfl | hw, h⟩)
      · exact Or.inl (Or.inl h)
      · exact Or.inl (Or.inr h)
      · exact Or.inr ⟨w, hw, h⟩

theorem nodup_unionValues {data : List Row} {di : DataIndex} {c : String}
    {vs : List String} {acc : PosSet} (h : acc.Nodup) :
    (unionValues data di c vs acc).Nodup := by
  induction vs generalizing acc with
  | nil => exact h
  | cons v rest ih => exact ih (nodup_foldl_setAdd h)

theorem mem_intersectStep {data : List Row} {di : DataIndex} {m : PosSet}
    {c : String} {vs : List String} {j : Nat} :
    j ∈ intersectStep data di m c vs ↔
      j ∈ m ∧ ∃ v ∈ vs, j ∈ indicesFor data di c v := by
  suffices h : ∀ acc : PosSet,
      j ∈ vs.foldl
        (fun acc v => (indicesFor data di c v).foldl
          (fun acc i => if i ∈ m then setAdd acc i else acc) acc) acc ↔
      j ∈ acc ∨ (j ∈ m ∧ ∃ v ∈ vs, j ∈ indicesFor data di c v) by
    simpa [intersectStep] using h []
  induction vs with
  | nil => simp
  | cons v rest ih =>
    intro acc
    rw [List.foldl_cons, ih, mem_foldl_condAdd]
    simp only [List.mem_cons]
    constructor
    · rintro ((h | h) | ⟨hm, w, hw, h⟩)
      · exact Or.inl h
      · exact Or.inr ⟨h.2, v, Or.inl rfl, h.1⟩
      · exact Or.inr ⟨hm, w, Or.inr hw, h⟩
    · rintro (h | ⟨hm, w, rfl | hw, h⟩)
      · exact Or.inl (Or.inl h)
      · exact Or.inl (Or.inr ⟨h, hm⟩)
      · exact Or.inr ⟨hm, w, hw, h⟩

theorem nodup_intersectStep {data : List Row} {di : DataIndex} {m : PosSet}
    {c : String} {vs : List String} : (intersectStep data di m c vs).Nodup := by
  suffices h : ∀ acc : PosSet, acc.Nodup →
      (vs.foldl
        (fun acc v => (indicesFor data di c v).foldl
          (fun acc i => if i ∈ m then setAdd acc i else acc) acc) acc).Nodup by
    exact h [] List.nodup_nil
  induction vs with
  | nil => exact fun acc h => h
  | cons v rest ih => exact fun acc h => ih _ (nodup_foldl_condAdd h)

theorem mem_matchRest {data : List Row} {di : DataIndex} {j : Nat} :
    ∀ (gs : FilterState) (m : PosSet),
    (j ∈ matchRest data di m gs ↔
      j ∈ m ∧ ∀ g ∈ gs, ∃ v ∈ g.2, j ∈ indicesFor data di g.1 v) := by
  intro gs
  induction gs with
  | nil => simp [matchRest]
  | cons g rest ih =>
    intro m
    obtain ⟨c, vs⟩ := g
    rw [matchRest]
    by_cases hm : (intersectStep data di m c vs).length = 0
    · have hempty : intersectStep data di m c vs = [] := List.length_eq_zero.mp hm
      rw [if_pos hm, hempty]
      simp only [List.not_mem_nil, false_iff]
      rintro ⟨hjm, hall⟩
      obtain ⟨v, hv, hj⟩ := hall (c, vs) (List.mem_cons_self _ _)
      have hmem : j ∈ intersectStep data di m c vs :=
        mem_intersectStep.mpr ⟨hjm, v, hv, hj⟩
      rw [hempty] at hmem
      exact (List.not_mem_nil j) hmem
    · rw [if_neg hm, ih, mem_intersectStep]
      constructor
      · rintro ⟨⟨hjm, hv⟩, hall⟩
        refine ⟨hjm, fun g hg => ?_⟩
        rcases List.mem_cons.mp hg with h | h
        · rw [h]; exact hv
        · exact hall g h
      · rintro ⟨hjm, hall⟩
        exact ⟨⟨hjm, hall (c, vs) (List.mem_cons_self _ _)⟩,
          fun g hg => hall g (List.mem_cons_of_mem _ hg)⟩

theorem nodup_matchRest {data : List Row} {di : DataIndex} :
    ∀ (gs : FilterState) (m : PosSet), m.Nodup → (matchRest data di m gs).Nodup := by
  intro gs
  induction gs with
  | nil => exact fun m h => h
  | cons g rest ih =>
    intro m hm
    obtain ⟨c, vs⟩ := g
    rw [matchRest]
    split
    · exact nodup_intersectStep
    · exact ih _ nodup_intersectStep

theorem mem_getMatchingIndices {data : List Row} {di : DataIndex} {j : Nat}
    {filters : FilterState} (hne : filters ≠ []) :
    j ∈ getMatchingIndices data di filters ↔
      ∀ g ∈ filters, ∃ v ∈ g.2, j ∈ indicesFor data di g.1 v := by
  match filters with
  | [] => exact absurd rfl hne
  | (c, vs) :: rest =>
    rw [getMatchingIndices, mem_matchRest, mem_unionValues]
    simp only [List.not_mem_nil, false_or]
    constructor
    · rintro ⟨hv, hall⟩
      intro g hg
      rcases List.mem_cons.mp hg with h | h
      · rw [h]; exact hv
      · exact hall g h
    · intro hall
      exact ⟨hall (c, vs) (List.mem_cons_self _ _),
        fun g hg => hall g (List.mem_cons_of_mem _ hg)⟩

theorem nodup_getMatchingIndices {data : List Row} {di : DataIndex}
    {filters : FilterState} : (getMatchingIndices data di filters).Nodup := by
  match filters with
  | [] => exact List.nodup_range _
  | (c, vs) :: rest => exact nodup_matchRest _ _ (nodup_unionValues List.nodup_nil)

theorem lt_length_of_mem_indicesFor {data : List Row} {c v : String} {j : Nat}
    (h : j ∈ indicesFor data (createUltraFastIndexes data) c v) : j < data.length := by
  rw [indicesFor] at h
  split at h
  · rw [getNumericMatchingIndices] at h
    split at h <;> simpa using (List.mem_filter.mp h).1
  · exact lt_length_of_mem_lookup_createUltraFastIndexes h

theorem lt_length_of_mem_getMatchingIndices {data : List Row} {filters : FilterState}
    {j : Nat} (h : j ∈ getMatchingIndices data (createUltraFastIndexes data) filters) :
    j < data.length := by
  match filters with
  | [] => simpa [getMatchingIndices] using h
  | g :: rest =>
    obtain ⟨v, -, hv⟩ :=
      (mem_getMatchingIndices (by simp)).mp h g (List.mem_cons_self _ _)
    exact lt_length_of_mem_indicesFor hv

/-! ## Idempotency lemmas for `buildIndex` -/

theorem ciAdd_eq_of_mem {ci : ColIndex} {v : String} {i : Nat}
    (h : i ∈ ciPos ci v) : ciAdd ci v i = ci := by
  induction ci with
  | nil => simp [ciPos_nil] at h
  | cons p rest ih =>
    obtain ⟨v', s⟩ := p
    by_cases hv : v' = v
    · subst hv
      rw [ciPos_cons, if_pos rfl] at h
      simp [ciAdd, setAdd, h]
    · rw [ciPos_cons, if_neg hv] at h
      simp [ciAdd, hv, ih h]

theorem mem_ciPos_buildIndexFrom {column v : String} {j : Nat} :
    ∀ (data : List Row) (idx : Nat) (ci : ColIndex), j ∈ ciPos ci v →
      j ∈ ciPos (buildIndexFrom column data idx ci) v := by
  intro data
  induction data with
  | nil => exact fun idx ci h => h
  | cons r rest ih =>
    intro idx ci h
    exact ih (idx + 1) _ (mem_ciPos_ciAdd.mpr (Or.inl h))

theorem mem_ciPos_buildIndexFrom_of_get {column : String} :
    ∀ (data : List Row) (idx : Nat) (ci : ColIndex) (k : Nat) (r : Row),
      data.get? k = some r →
      (idx + k) ∈ ciPos (buildIndexFrom column data idx ci) (rowStr r column) := by
  intro data
  induction data with
  | nil => intro idx ci k r h; simp at h
  | cons r₀ rest ih =>
    intro idx ci k r h
    cases k with
    | zero =>
      obtain rfl : r₀ = r := by simpa using h
      rw [buildIndexFrom, Nat.add_zero]
      exact mem_ciPos_buildIndexFrom rest (idx + 1) _
        (mem_ciPos_ciAdd.mpr (Or.inr ⟨rfl, rfl⟩))
    | succ k =>
      rw [buildIndexFrom, show idx + (k + 1) = (idx + 1) + k by omega]
      exact ih (idx + 1) _ k r (by simpa using h)

theorem buildIndexFrom_eq_of_all_mem {column : String} :
    ∀ (data : List Row) (idx : Nat) (ci : ColIndex),
      (∀ k r, data.get? k = some r → (idx + k) ∈ ciPos ci (rowStr r column)) →
      buildIndexFrom column data idx ci = ci := by
  intro data
  induction data with
  | nil => intro idx ci _; rfl
  | cons r₀ rest ih =>
    intro idx ci h
    have h0 : idx ∈ ciPos ci (rowStr r₀ column) := by
      have := h 0 r₀ (by simp)
      rwa [Nat.add_zero] at this
    rw [buildIndexFrom, ciAdd_eq_of_mem h0]
    refine ih (idx + 1) ci (fun k r hk => ?_)
    rw [show (idx + 1) + k = idx + (k + 1) by omega]
    exact h (k + 1) r (by simpa using hk)

/-- **C8**: indexing the same `(chunk, offset)` pair a second time leaves the
column's inverted index unchanged — no value-set gains positions and no count
changes — because position sets dedupe on insertion (`Set.add`). -/
theorem claim_C8_buildIndex_idempotent (ci : ColIndex) (column : String)
    (data : List Row) (startIndex : Nat) :
    buildIndex (buildIndex ci column data startIndex) column data startIndex =
      buildIndex ci column data startIndex := by
  unfold buildIndex
  exact buildIndexFrom_eq_of_all_mem data startIndex _
    (fun k r hk => mem_ciPos_buildIndexFrom_of_get data startIndex ci k r hk)

/-! ## Linking the naive scan to active entries -/

theorem get?_eq_some_getD {l : List Row} {j : Nat} (h : j < l.length) :
    l.get? j = some (l.getD j []) := by
  rw [List.getD_eq_get l [] h, List.get?_eq_get h]

theorem rowMatches_iff_active {filters : FilterState} {r : Row} :
    rowMatches filters r = true ↔ ∀ g ∈ activeEntries filters, rowStr r g.1 ∈ g.2 := by
  simp only [rowMatches, List.all_eq_true, activeEntries, List.mem_filter,
    Bool.or_eq_true, Bool.not_eq_eq_eq_not, Bool.not_true, and_imp]
  constructor
  · intro h g hg hne
    rcases h g hg with he | hc
    · rw [List.isEmpty_iff] at he
      rw [he] at hne
      simp [List.isEmpty_iff] at hne
    · exact List.elem_iff.mp hc
  · intro h g hg
    by_cases he : g.2.isEmpty
    · exact Or.inl he
    · exact Or.inr (List.elem_iff.mpr (h g hg (by simpa using he)))

theorem rowMatches_of_active_nil {filters : FilterState} {r : Row}
    (h : activeEntries filters = []) : rowMatches filters r = true := by
  rw [rowMatches_iff_active, h]
  simp

theorem mem_acceptedPositions {data : List Row} {filters : FilterState} {j : Nat} :
    j ∈ acceptedPositions data filters ↔
      j < data.length ∧ rowMatches filters (data.getD j []) = true := by
  simp [acceptedPositions, List.mem_filter, List.mem_range]

theorem mem_indicesFor_not_numeric {data : List Row} {c v : String} {j : Nat}
    (hn : c ∉ numericColumns) (hwf : ∀ r ∈ data, c ∈ rowKeys r) :
    j ∈ indicesFor data (createUltraFastIndexes data) c v ↔
      j < data.length ∧ rowStr (data.getD j []) c = v := by
  rw [indicesFor, if_neg hn, mem_lookup_createUltraFastIndexes]
  constructor
  · rintro ⟨r, hget, -, hv⟩
    have hj := (List.get?_eq_some.mp hget).1
    refine ⟨hj, ?_⟩
    have := get?_eq_some_getD hj
    rw [this] at hget
    obtain rfl : data.getD j [] = r := by simpa using hget
    exact hv
  · rintro ⟨hj, hv⟩
    exact ⟨data.getD j [], get?_eq_some_getD hj,
      hwf _ (List.get?_mem (get?_eq_some_getD hj)), hv⟩

/-! ## Claim C1 -/

/-- **C1** (counterexample): on the built-in numeric column `id`, the indexed
evaluator interprets the filter value `"1-2"` as the numeric range `[1, 2]`
and accepts position 0 (row with stringified id `"1"`), while the naive
brute-force scan rejects every row (no row's stringified value equals the
string `"1-2"`) — so the claimed equivalence fails. -/
theorem claim_C1_counterexample :
    0 ∈ getMatchingIndices [[("id", JSValue.str "1")], [("id", JSValue.str "2")]]
        (createUltraFastIndexes [[("id", JSValue.str "1")], [("id", JSValue.str "2")]])
        (activeEntries [("id", ["1-2"])]) ∧
    0 ∉ acceptedPositions [[("id", JSValue.str "1")], [("id", JSValue.str "2")]]
        [("id", ["1-2"])] := by
  constructor
  · decide
  · decide

/-- **C1** (amended): for every dataset and filter state whose constrained
columns avoid the built-in numeric columns (`id`, `number`) and are present in
every row, the indexed evaluator `getMatchingIndices` (on the active entries,
over the built index) accepts exactly the positions accepted by the naive
brute-force scan. -/
theorem claim_C1_indexed_eq_naive (data : List Row) (filters : FilterState)
    (hnum : ∀ g ∈ filters, g.1 ∉ numericColumns)
    (hwf : ∀ r ∈ data, ∀ g ∈ filters, g.1 ∈ rowKeys r) :
    ∀ j, j ∈ getMatchingIndices data (createUltraFastIndexes data)
        (activeEntries filters) ↔ j ∈ acceptedPositions data filters := by
  intro j
  rw [mem_acceptedPositions]
  by_cases hA : activeEntries filters = []
  · rw [hA]
    simp only [getMatchingIndices, List.mem_range]
    exact ⟨fun h => ⟨h, rowMatches_of_active_nil hA⟩, fun h => h.1⟩
  · rw [mem_getMatchingIndices hA]
    constructor
    · intro h
      obtain ⟨g₀, hg₀⟩ := List.exists_mem_of_ne_nil _ hA
      have hg₀F : g₀ ∈ filters := (List.mem_filter.mp hg₀).1
      obtain ⟨v, hv, hj⟩ := h g₀ hg₀
      have hjlen : j < data.length :=
        (mem_indicesFor_not_numeric (hnum g₀ hg₀F) (fun r hr => hwf r hr g₀ hg₀F)).mp hj |>.1
      refine ⟨hjlen, rowMatches_iff_active.mpr (fun g hg => ?_)⟩
      have hgF : g ∈ filters := (List.mem_filter.mp hg).1
      obtain ⟨w, hw, hjw⟩ := h g hg
      have := (mem_indicesFor_not_numeric (hnum g hgF) (fun r hr => hwf r hr g hgF)).mp hjw
      rw [this.2]
      exact hw
    · rintro ⟨hjlen, hmatch⟩
      intro g hg
      have hgF : g ∈ filters := (List.mem_filter.mp hg).1
      refine ⟨rowStr (data.getD j []) g.1, rowMatches_iff_active.mp hmatch g hg, ?_⟩
      exact (mem_indicesFor_not_numeric (hnum g hgF) (fun r hr => hwf r hr g hgF)).mpr
        ⟨hjlen, rfl⟩

/-- **C1** (witness): the amended equivalence at a concrete two-row dataset
with a non-numeric column. -/
theorem claim_C1_witness :
    (∀ g ∈ [("name", ["x"])], (g : String × List String).1 ∉ numericColumns) ∧
    (∀ r ∈ [[("name", JSValue.str "x")], [("name", JSValue.str "y")]],
      ∀ g ∈ [("name", ["x"])], (g : String × List String).1 ∈ rowKeys r) ∧
    (0 ∈ getMatchingIndices [[("name", JSValue.str "x")], [("name", JSValue.str "y")]]
        (createUltraFastIndexes [[("name", JSValue.str "x")], [("name", JSValue.str "y")]])
        (activeEntries [("name", ["x"])]) ↔
      0 ∈ acceptedPositions [[("name", JSValue.str "x")], [("name", JSValue.str "y")]]
        [("name", ["x"])]) :=
  ⟨by decide, by decide,
    claim_C1_indexed_eq_naive _ [("name", ["x"])] (by decide) (by decide) 0⟩

/-! ## Claim C2 -/

/-- **C2**: after `createUltraFastIndexes`, for any column present in every
row, the per-value position sets of that column partition the positions:
their union is exactly `[0, rowCount)` and distinct stringified values have
disjoint sets. -/
theorem claim_C2_index_partition (data : List Row) (c : String)
    (hc : ∀ r ∈ data, c ∈ rowKeys r) :
    (∀ j, (∃ v, j ∈ lookupPositions (createUltraFastIndexes data) c v) ↔
      j < data.length) ∧
    (∀ v₁ v₂ j, j ∈ lookupPositions (createUltraFastIndexes data) c v₁ →
      j ∈ lookupPositions (createUltraFastIndexes data) c v₂ → v₁ = v₂) := by
  constructor
  · intro j
    constructor
    · rintro ⟨v, hv⟩
      exact lt_length_of_mem_lookup_createUltraFastIndexes hv
    · intro hj
      refine ⟨rowStr (data.getD j []) c, mem_lookup_createUltraFastIndexes.mpr ?_⟩
      exact ⟨data.getD j [], get?_eq_some_getD hj,
        hc _ (List.get?_mem (get?_eq_some_getD hj)), rfl⟩
  · intro v₁ v₂ j h₁ h₂
    obtain ⟨r₁, hget₁, -, hv₁⟩ := mem_lookup_createUltraFastIndexes.mp h₁
    obtain ⟨r₂, hget₂, -, hv₂⟩ := mem_lookup_createUltraFastIndexes.mp h₂
    rw [hget₁] at hget₂
    obtain rfl : r₁ = r₂ := by simpa using hget₂
    rw [← hv₁, ← hv₂]

/-- **C2** (witness): the partition property at a concrete two-row dataset. -/
theorem claim_C2_witness :
    (∀ r ∈ [[("name", JSValue.str "x")], [("name", JSValue.str "y")]],
      "name" ∈ rowKeys r) ∧
    ((∃ v, 0 ∈ lookupPositions
        (createUltraFastIndexes [[("name", JSValue.str "x")], [("name", JSValue.str "y")]])
        "name" v) ↔
      0 < ([[("name", JSValue.str "x")], [("name", JSValue.str "y")]] : List Row).length) :=
  ⟨by decide,
    (claim_C2_index_partition [[("name", JSValue.str "x")], [("name", JSValue.str "y")]]
      "name" (by decide)).1 0⟩

/-! ## Claim C4 -/

theorem mem_activeEntries_updateFilterState {F : FilterState} {c : String}
    {vs : List String} (hvs : vs ≠ []) (hun : ∀ e ∈ F, e.1 = c → e.2 = [])
    {g : String × List String} :
    g ∈ activeEntries (updateFilterState F c vs) ↔
      g ∈ activeEntries F ∨ g = (c, vs) := by
  rw [updateFilterState, if_neg (by simpa [List.isEmpty_iff] using hvs), objSet]
  by_cases hk : c ∈ fsKeys F
  · rw [if_pos hk]
    constructor
    · intro hg
      obtain ⟨hgm, hgne⟩ := List.mem_filter.mp hg
      obtain ⟨e, he, hfe⟩ := List.mem_map.mp hgm
      by_cases hec : e.1 = c
      · rw [if_pos hec] at hfe
        exact Or.inr hfe.symm
      · rw [if_neg hec] at hfe
        subst hfe
        exact Or.inl (List.mem_filter.mpr ⟨he, hgne⟩)
    · rintro (hg | rfl)
      · obtain ⟨hgm, hgne⟩ := List.mem_filter.mp hg
        have hgc : g.1 ≠ c := by
          intro h
          have := hun g hgm h
          rw [this] at hgne
          simp at hgne
        refine List.mem_filter.mpr ⟨List.mem_map.mpr ⟨g, hgm, ?_⟩, hgne⟩
        rw [if_neg hgc]
      · obtain ⟨x, hx⟩ : ∃ x, (c, x) ∈ F := by simpa [fsKeys] using hk
        refine List.mem_filter.mpr ⟨List.mem_map.mpr ⟨(c, x), hx, ?_⟩,
          by simpa [List.isEmpty_iff] using hvs⟩
        rw [if_pos rfl]
  · rw [if_neg hk, activeEntries, List.filter_append]
    simp only [List.mem_append]
    constructor
    · rintro (hg | hg)
      · exact Or.inl hg
      · refine Or.inr ?_
        have := List.mem_filter.mp hg
        simpa using this.1
    · rintro (hg | rfl)
      · exact Or.inl hg
      · refine Or.inr (List.mem_filter.mpr ?_)
        exact ⟨List.mem_singleton_self _, by simpa [List.isEmpty_iff] using hvs⟩

/-- **C4**: extending a filter state with one additional constraint — a
non-empty selection on a column that was absent or unconstrained — never
increases the size of the matching-position set computed by the indexed
evaluator. -/
theorem claim_C4_constraint_monotone (data : List Row) (F : FilterState)
    (c : String) (vs : List String) (hvs : vs ≠ [])
    (hun : ∀ e ∈ F, e.1 = c → e.2 = []) :
    (getMatchingIndices data (createUltraFastIndexes data)
        (activeEntries (updateFilterState F c vs))).length ≤
      (getMatchingIndices data (createUltraFastIndexes data)
        (activeEntries F)).length := by
  refine List.Subperm.length_le
    (List.subperm_of_subset nodup_getMatchingIndices (fun j hj => ?_))
  have hjlen := lt_length_of_mem_getMatchingIndices hj
  by_cases hB : activeEntries F = []
  · rw [hB]
    simpa [getMatchingIndices, List.mem_range] using hjlen
  · rw [mem_getMatchingIndices hB]
    intro g hg
    have hg' : g ∈ activeEntries (updateFilterState F c vs) :=
      (mem_activeEntries_updateFilterState hvs hun).mpr (Or.inl hg)
    have hAne : activeEntries (updateFilterState F c vs) ≠ [] :=
      List.ne_nil_of_mem hg'
    exact (mem_getMatchingIndices hAne).mp hj g hg'

/-- **C4** (witness): the monotonicity inequality at a concrete dataset and
filter state. -/
theorem claim_C4_witness :
    ((["y"] : List String) ≠ []) ∧
    (∀ e ∈ [("name", ["x"])], (e : String × List String).1 = "other" → e.2 = []) ∧
    ((getMatchingIndices [[("name", JSValue.str "x")], [("name", JSValue.str "y")]]
        (createUltraFastIndexes [[("name", JSValue.str "x")], [("name", JSValue.str "y")]])
        (activeEntries (updateFilterState [("name", ["x"])] "other" ["y"]))).length ≤
      (getMatchingIndices [[("name", JSValue.str "x")], [("name", JSValue.str "y")]]
        (createUltraFastIndexes [[("name", JSValue.str "x")], [("name", JSValue.str "y")]])
        (activeEntries [("name", ["x"])])).length) :=
  ⟨by decide, by decide,
    claim_C4_constraint_monotone _ [("name", ["x"])] "other" ["y"] (by decide) (by decide)⟩

/-! ## Claim C10 -/

/-- JS object property read `obj[c]` on a filter state. -/
def fsGet : FilterState → String → Option (List String)
  | [], _ => none
  | e :: rest, c => if e.1 = c then some e.2 else fsGet rest c

theorem fsGet_objDelete {F : FilterState} {c c₀ : String} :
    fsGet (objDelete F c) c₀ = if c₀ = c then none else fsGet F c₀ := by
  induction F with
  | nil => simp [objDelete, fsGet]
  | cons e rest ih =>
    by_cases hec : e.1 = c
    · rw [show objDelete (e :: rest) c = objDelete rest c from by
        simp [objDelete, hec], ih]
      by_cases h0 : c₀ = c
      · rw [if_pos h0, if_pos h0]
      · rw [if_neg h0, if_neg h0, fsGet, if_neg (by rw [hec]; exact fun h => h0 h.symm)]
    · rw [show objDelete (e :: rest) c = e :: objDelete rest c from by
        simp [objDelete, hec]]
      by_cases h0 : c₀ = c
      · rw [if_pos h0, fsGet, if_neg (by rw [h0]; exact hec), ih, if_pos h0]
      · rw [if_neg h0, fsGet, fsGet]
        by_cases he0 : e.1 = c₀
        · rw [if_pos he0, if_pos he0]
        · rw [if_neg he0, if_neg he0, ih, if_neg h0]

theorem fsGet_append {F G : FilterState} {c : String} :
    fsGet (F ++ G) c = match fsGet F c with
      | some v => some v
      | none => fsGet G c := by
  induction F with
  | nil => simp [fsGet]
  | cons e rest ih =>
    by_cases he : e.1 = c
    · simp [fsGet, he]
    · simpa [fsGet, he] using ih

theorem fsGet_none_of_not_mem_keys {F : FilterState} {c : String}
    (h : c ∉ fsKeys F) : fsGet F c = none := by
  induction F with
  | nil => rfl
  | cons e rest ih =>
    rw [fsGet, if_neg (fun he => h (by simp [fsKeys, ← he])),
      ih (fun hm => h (by simp [fsKeys] at hm ⊢; exact Or.inr hm))]

theorem fsGet_map_set {F : FilterState} {c c₀ : String} {vs : List String} :
    fsGet (F.map (fun e => if e.1 = c then (c, vs) else e)) c₀ =
      if c₀ = c then (if c ∈ fsKeys F then some vs else none)
      else fsGet F c₀ := by
  induction F with
  | nil => simp [fsGet, fsKeys]
  | cons e rest ih =>
    by_cases hec : e.1 = c
    · rw [List.map_cons, if_pos hec, fsGet]
      by_cases h0 : c₀ = c
      · rw [if_pos h0.symm, if_pos h0,
          if_pos (show c ∈ fsKeys (e :: rest) by simp [fsKeys, ← hec])]
      · rw [if_neg (fun h => h0 h.symm), if_neg h0, ih, if_neg h0, fsGet,
          if_neg (hec ▸ fun h => h0 h.symm)]
    · rw [List.map_cons, if_neg hec, fsGet, fsGet]
      by_cases he0 : e.1 = c₀
      · rw [if_pos he0, if_pos he0, if_neg (fun h : c₀ = c => hec (he0.trans h))]
      · rw [if_neg he0, if_neg he0, ih]
        by_cases h0 : c₀ = c
        · rw [if_pos h0, if_pos h0,
            show fsKeys (e :: rest) = e.1 :: fsKeys rest from rfl]
          simp [show ¬c = e.1 from fun h => hec h.symm]
        · rw [if_neg h0, if_neg h0]

theorem fsGet_objSet {F : FilterState} {c c₀ : String} {vs : List String} :
    fsGet (objSet F c vs) c₀ = if c₀ = c then some vs else fsGet F c₀ := by
  rw [objSet]
  by_cases hk : c ∈ fsKeys F
  · rw [if_pos hk, fsGet_map_set, if_pos hk]
  · rw [if_neg hk, fsGet_append]
    by_cases h0 : c₀ = c
    · rw [if_pos h0, h0, fsGet_none_of_not_mem_keys hk]
      simp [fsGet]
    · rw [if_neg h0]
      rcases hF : fsGet F c₀ with - | v
      · simp [fsGet, show ¬c = c₀ from fun h => h0 h.symm]
      · simp

/-- **C10**: `updateFilterState` with an empty selection removes the key
entirely; with a non-empty selection it maps the key to exactly that list; and
every other column's entry is unchanged.  (The source operates on a fresh
spread copy of the input object, which the pure embedding reflects: the input
state is a value and is never modified.) -/
theorem claim_C10_updateFilterState (F : FilterState) (c : String) (vs : List String) :
    (vs = [] → fsGet (updateFilterState F c vs) c = none) ∧
    (vs ≠ [] → fsGet (updateFilterState F c vs) c = some vs) ∧
    (∀ c₀, c₀ ≠ c → fsGet (updateFilterState F c vs) c₀ = fsGet F c₀) := by
  refine ⟨fun h => ?_, fun h => ?_, fun c₀ h => ?_⟩
  · rw [updateFilterState, if_pos (by simp [h]), fsGet_objDelete, if_pos rfl]
  · rw [updateFilterState, if_neg (by simpa [List.isEmpty_iff] using h),
      fsGet_objSet, if_pos rfl]
  · by_cases he : vs = []
    · rw [updateFilterState, if_pos (by simp [he]), fsGet_objDelete, if_neg h]
    · rw [updateFilterState, if_neg (by simpa [List.isEmpty_iff] using he),
        fsGet_objSet, if_neg h]

/-- **C10** (witness): the three behaviours at a concrete filter state. -/
theorem claim_C10_witness :
    fsGet (updateFilterState [("a", ["1"]), ("b", ["2"])] "a" []) "a" = none ∧
    fsGet (updateFilterState [("a", ["1"]), ("b", ["2"])] "a" ["3"]) "a" = some ["3"] ∧
    fsGet (updateFilterState [("a", ["1"]), ("b", ["2"])] "a" ["3"]) "b" = some ["2"] :=
  ⟨(claim_C10_updateFilterState [("a", ["1"]), ("b", ["2"])] "a" []).1 rfl,
    (claim_C10_updateFilterState [("a", ["1"]), ("b", ["2"])] "a" ["3"]).2.1 (by decide),
    ((claim_C10_updateFilterState [("a", ["1"]), ("b", ["2"])] "a" ["3"]).2.2 "b" (by decide)).trans
      (by decide)⟩

/-! ## JS string comparison and `Array.prototype.sort`

JS compares strings code-unit-wise (`<`, default `sort()`); `localeCompare` is
locale-dependent but total — both are modelled by code-point lexicographic
order, which agrees with code-unit order on the basic multilingual plane. -/

/-- Lexicographic comparison of char lists: `a ≤ b`. -/
def charListLe : List Char → List Char → Bool
  | [], _ => true
  | _ :: _, [] => false
  | a :: as, b :: bs => if a = b then charListLe as bs else decide (a < b)

/-- JS string `≤` (code-unit lexicographic order). -/
def jsStringLe (a b : String) : Bool := charListLe a.toList b.toList

theorem charListLe_total : ∀ a b : List Char, charListLe a b = true ∨ charListLe b a = true
  | [], _ => Or.inl rfl
  | _ :: _, [] => Or.inr rfl
  | a :: as, b :: bs => by
    by_cases hab : a = b
    · subst hab
      simpa [charListLe] using charListLe_total as bs
    · rcases lt_or_gt_of_ne hab with h | h
      · exact Or.inl (by simp [charListLe, hab, h])
      · exact Or.inr (by simp [charListLe, show b ≠ a from fun e => hab e.symm, h])

theorem charListLe_trans :
    ∀ a b c : List Char, charListLe a b = true → charListLe b c = true →
      charListLe a c = true
  | [], _, _, _, _ => rfl
  | _ :: _, [], _, h, _ => by simp [charListLe] at h
  | _ :: _, _ :: _, [], _, h => by simp [charListLe] at h
  | a :: as, b :: bs, c :: cs, h₁, h₂ => by
    by_cases hab : a = b <;> by_cases hbc : b = c
    · subst hab; subst hbc
      rw [charListLe, if_pos rfl] at h₁ h₂ ⊢
      exact charListLe_trans as bs cs h₁ h₂
    · subst hab
      rw [charListLe, if_pos rfl] at h₁
      rw [charListLe, if_neg hbc] at h₂ ⊢
      exact h₂
    · subst hbc
      rw [charListLe, if_neg hab] at h₁ ⊢
      exact h₁
    · rw [charListLe, if_neg hab] at h₁
      rw [charListLe, if_neg hbc] at h₂
      have hac : a < c := lt_trans (of_decide_eq_true h₁) (of_decide_eq_true h₂)
      rw [charListLe, if_neg (ne_of_lt hac)]
      exact decide_eq_true hac

theorem charListLe_antisymm :
    ∀ a b : List Char, charListLe a b = true → charListLe b a = true → a = b
  | [], [], _, _ => rfl
  | [], _ :: _, _, h => by simp [charListLe] at h
  | _ :: _, [], h, _ => by simp [charListLe] at h
  | a :: as, b :: bs, h₁, h₂ => by
    by_cases hab : a = b
    · subst hab
      rw [charListLe, if_pos rfl] at h₁ h₂
      rw [charListLe_antisymm as bs h₁ h₂]
    · rw [charListLe, if_neg hab] at h₁
      rw [charListLe, if_neg (fun e => hab e.symm)] at h₂
      exact absurd (of_decide_eq_true h₂) (not_lt_of_lt (of_decide_eq_true h₁))

theorem jsStringLe_total (a b : String) : jsStringLe a b = true ∨ jsStringLe b a = true :=
  charListLe_total a.toList b.toList

theorem jsStringLe_trans {a b c : String} (h₁ : jsStringLe a b = true)
    (h₂ : jsStringLe b c = true) : jsStringLe a c = true :=
  charListLe_trans a.toList b.toList c.toList h₁ h₂

theorem jsStringLe_antisymm {a b : String} (h₁ : jsStringLe a b = true)
    (h₂ : jsStringLe b a = true) : a = b := by
  have h := charListLe_antisymm a.toList b.toList h₁ h₂
  exact String.ext h

/-- One insertion of a stable insertion sort: place `a` before the first
element `b` with `le a b` (ties keep the earlier element first). -/
def insertSorted {α : Type} (le : α → α → Bool) (a : α) : List α → List α
  | [] => [a]
  | b :: bs => if le a b then a :: b :: bs else b :: insertSorted le a bs

/-- Stable sort modelling `Array.prototype.sort(cmp)` with
`le a b := cmp(a, b) <= 0`: insertion sort, which agrees with any stable sort
for consistent comparators and with V8's small-array insertion sort here. -/
def jsSortBy {α : Type} (le : α → α → Bool) : List α → List α
  | [] => []
  | a :: as => insertSorted le a (jsSortBy le as)

theorem perm_insertSorted {α : Type} (le : α → α → Bool) (a : α) :
    ∀ l : List α, (insertSorted le a l).Perm (a :: l) := by
  intro l
  induction l with
  | nil => exact List.Perm.refl _
  | cons b bs ih =>
    rw [insertSorted]
    split
    · exact List.Perm.refl _
    · exact (List.Perm.cons b ih).trans (List.Perm.swap a b bs)

theorem perm_jsSortBy {α : Type} (le : α → α → Bool) :
    ∀ l : List α, (jsSortBy le l).Perm l := by
  intro l
  induction l with
  | nil => exact List.Perm.refl _
  | cons a as ih =>
    exact (perm_insertSorted le a (jsSortBy le as)).trans (List.Perm.cons a ih)

theorem mem_insertSorted {α : Type} {le : α → α → Bool} {a x : α} {l : List α} :
    x ∈ insertSorted le a l ↔ x = a ∨ x ∈ l :=
  ⟨fun h => by simpa using (perm_insertSorted le a l).mem_iff.mp h,
   fun h => (perm_insertSorted le a l).mem_iff.mpr (by simpa using h)⟩

theorem mem_jsSortBy {α : Type} {le : α → α → Bool} {x : α} {l : List α} :
    x ∈ jsSortBy le l ↔ x ∈ l :=
  (perm_jsSortBy le l).mem_iff

theorem pairwise_insertSorted {α : Type} {le : α → α → Bool} {a : α} {l : List α}
    (hl : l.Pairwise (fun x y => le x y = true))
    (htot : ∀ b ∈ l, le a b = true ∨ le b a = true)
    (htrans : ∀ b ∈ l, ∀ c ∈ l, le a b = true → le b c = true → le a c = true) :
    (insertSorted le a l).Pairwise (fun x y => le x y = true) := by
  induction l with
  | nil => simp [insertSorted]
  | cons b bs ih =>
    rw [insertSorted]
    by_cases hab : le a b = true
    · rw [if_pos hab]
      refine List.Pairwise.cons ?_ hl
      intro x hx
      rcases List.mem_cons.mp hx with rfl | hx
      · exact hab
      · exact htrans b (List.mem_cons_self _ _) x (List.mem_cons_of_mem _ hx) hab
          (List.rel_of_pairwise_cons hl hx)
    · rw [if_neg hab]
      have hba : le b a = true := by
        rcases htot b (List.mem_cons_self _ _) with h | h
        · exact absurd h hab
        · exact h
      refine List.Pairwise.cons ?_ ?_
      · intro x hx
        rcases mem_insertSorted.mp hx with rfl | hx
        · exact hba
        · exact List.rel_of_pairwise_cons hl hx
      · exact ih (List.Pairwise.sublist (List.sublist_cons_self b bs) hl)
          (fun x hx => htot x (List.mem_cons_of_mem _ hx))
          (fun x hx y hy => htrans x (List.mem_cons_of_mem _ hx) y (List.mem_cons_of_mem _ hy))

theorem pairwise_jsSortBy {α : Type} {le : α → α → Bool} {l : List α}
    (htot : ∀ a ∈ l, ∀ b ∈ l, le a b = true ∨ le b a = true)
    (htrans : ∀ a ∈ l, ∀ b ∈ l, ∀ c ∈ l, le a b = true → le b c = true → le a c = true) :
    (jsSortBy le l).Pairwise (fun x y => le x y = true) := by
  induction l with
  | nil => simp [jsSortBy]
  | cons a as ih =>
    rw [jsSortBy]
    have hsub : ∀ x ∈ jsSortBy le as, x ∈ a :: as :=
      fun x hx => List.mem_cons_of_mem _ (mem_jsSortBy.mp hx)
    refine pairwise_insertSorted
      (ih (fun x hx y hy => htot x (List.mem_cons_of_mem _ hx) y (List.mem_cons_of_mem _ hy))
          (fun x hx y hy z hz => htrans x (List.mem_cons_of_mem _ hx)
            y (List.mem_cons_of_mem _ hy) z (List.mem_cons_of_mem _ hz)))
      (fun b hb => htot a (List.mem_cons_self _ _) b (hsub b hb))
      (fun b hb c hc => htrans a (List.mem_cons_self _ _) b (hsub b hb) c (hsub c hc))

theorem eq_of_perm_of_pairwise {α : Type} {le : α → α → Bool} :
    ∀ {l₁ l₂ : List α}, l₁.Perm l₂ →
      l₁.Pairwise (fun x y => le x y = true) →
      l₂.Pairwise (fun x y => le x y = true) →
      (∀ a ∈ l₁, ∀ b ∈ l₁, le a b = true → le b a = true → a = b) →
      l₁ = l₂ := by
  intro l₁
  induction l₁ with
  | nil => intro l₂ hp _ _ _; exact (hp.nil_eq).symm ▸ rfl
  | cons a t₁ ih =>
    intro l₂ hp h₁ h₂ hanti
    match l₂ with
    | [] => exact absurd hp.symm.nil_eq (by simp)
    | b :: t₂ =>
      have hab : a = b := by
        by_cases h : a = b
        · exact h
        · have haIn : a ∈ b :: t₂ := hp.mem_iff.mp (List.mem_cons_self _ _)
          have hbIn : b ∈ a :: t₁ := hp.symm.mem_iff.mp (List.mem_cons_self _ _)
          have haT₂ : a ∈ t₂ := by
            rcases List.mem_cons.mp haIn with h' | h'
            · exact absurd h' h
            · exact h'
          have hbT₁ : b ∈ t₁ := by
            rcases List.mem_cons.mp hbIn with h' | h'
            · exact absurd h'.symm h
            · exact h'
          have hle₁ : le a b = true := List.rel_of_pairwise_cons h₁ hbT₁
          have hle₂ : le b a = true := List.rel_of_pairwise_cons h₂ haT₂
          exact hanti a (List.mem_cons_self _ _) b (List.mem_cons_of_mem _ hbT₁) hle₁ hle₂
      subst hab
      have hp' : t₁.Perm t₂ := hp.cons_inv
      rw [ih hp' (List.Pairwise.sublist (List.sublist_cons_self a t₁) h₁)
        (List.Pairwise.sublist (List.sublist_cons_self a t₂) h₂)
        (fun x hx y hy => hanti x (List.mem_cons_of_mem _ hx) y (List.mem_cons_of_mem _ hy))]

/-! ## Claim C7: `createFilterKey` (ChunkedFilterManager, part_010 lines 271–279)

```js
const relevantFilters = Object.entries(filters)
  .filter(([col, values]) => col !== excludeColumn && values.length > 0)
  .sort(([a], [b]) => a.localeCompare(b));
return relevantFilters
  .map(([col, values]) => `col:values.sort().join(',')`)
  .join('|');
``` -/

/-- JS `Array.prototype.join(sep)`. -/
def joinSep (sep : String) : List String → String
  | [] => ""
  | [x] => x
  | x :: y :: rest => x ++ sep ++ joinSep sep (y :: rest)

/-- `values.sort()` — default JS sort of a string array (code-unit order). -/
def canonValues (vs : List String) : List String := jsSortBy jsStringLe vs

/-- `createFilterKey`: drop the excluded column and empty selections, sort the
entries by column name, serialize each as `col:v1,v2` with sorted values, and
join the fragments with `|`. -/
def createFilterKey (filters : FilterState) (excludeColumn : Option String) : String :=
  let relevant := filters.filter
    (fun e => decide (some e.1 ≠ excludeColumn) && !e.2.isEmpty)
  let sorted := jsSortBy (fun a b => jsStringLe a.1 b.1) relevant
  joinSep "|" (sorted.map (fun e => e.1 ++ ":" ++ joinSep "," (canonValues e.2)))

/-- Canonical form of one filter entry: values sorted. Two filter states denote
the same constraints up to entry order and per-column value order exactly when
their canonical entry lists are permutations of each other. -/
def canonEntry (e : String × List String) : String × List String :=
  (e.1, canonValues e.2)

theorem canonValues_nil_iff {vs : List String} : canonValues vs = [] ↔ vs = [] := by
  constructor
  · intro h
    have hp := perm_jsSortBy jsStringLe vs
    rw [canonValues] at h
    rw [h] at hp
    exact hp.nil_eq.symm
  · rintro rfl; rfl

theorem eq_of_fst_eq_of_nodup_keys {α β : Type} {l : List (α × β)}
    (hnd : (l.map Prod.fst).Nodup) {a b : α × β}
    (ha : a ∈ l) (hb : b ∈ l) (hfst : a.1 = b.1) : a = b := by
  induction l with
  | nil => simp at ha
  | cons e rest ih =>
    rw [List.map_cons, List.nodup_cons] at hnd
    rcases List.mem_cons.mp ha with rfl | ha' <;> rcases List.mem_cons.mp hb with h | hb'
    · exact h ▸ rfl
    · exact absurd (hfst ▸ List.mem_map_of_mem Prod.fst hb') hnd.1
    · exact absurd (hfst ▸ List.mem_map_of_mem Prod.fst ha') (h ▸ hnd.1)
    · exact ih hnd.2 ha' hb'

/-- **C7**: two filter states holding the same column constraints — the same
canonical entries, in any entry order and any per-column value order, with
unique column keys — produce the identical cache key string: columns sorted,
values sorted within each column, empty selections dropped. -/
theorem claim_C7_filterKey_canonical (F₁ F₂ : FilterState)
    (hperm : (F₁.map canonEntry).Perm (F₂.map canonEntry))
    (hnd : (fsKeys F₁).Nodup) :
    createFilterKey F₁ none = createFilterKey F₂ none := by
  have hfilter : ∀ F : FilterState,
      F.filter (fun e => decide (some e.1 ≠ (none : Option String)) && !e.2.isEmpty) =
        F.filter (fun e => !e.2.isEmpty) := by
    intro F
    refine List.filter_congr (fun e _ => ?_)
    simp
  have hpermF : ((F₁.filter (fun e => !e.2.isEmpty)).map canonEntry).Perm
      ((F₂.filter (fun e => !e.2.isEmpty)).map canonEntry) := by
    have h₁ : ∀ F : FilterState, (F.filter (fun e => !e.2.isEmpty)).map canonEntry =
        (F.map canonEntry).filter (fun e => !e.2.isEmpty) := by
      intro F
      rw [List.filter_map]
      congr 1
      refine List.filter_congr (fun e _ => ?_)
      show (!e.2.isEmpty) = (!(canonEntry e).2.isEmpty)
      by_cases he : e.2 = []
      · rw [show (canonEntry e).2 = canonValues e.2 from rfl, he]
        rfl
      · have h2 : (canonEntry e).2 ≠ [] :=
          fun hc => he (canonValues_nil_iff.mp hc)
        rw [show e.2.isEmpty = false from by simpa [List.isEmpty_iff] using he,
          show (canonEntry e).2.isEmpty = false from by
            simpa [List.isEmpty_iff] using h2]
    rw [h₁, h₁]
    exact hperm.filter _
  set leE : (String × List String) → (String × List String) → Bool :=
    fun a b => jsStringLe a.1 b.1 with hleE
  have hkey : ∀ F : FilterState, createFilterKey F none =
      joinSep "|" ((jsSortBy leE (F.filter (fun e => !e.2.isEmpty))).map
        (fun e => e.1 ++ ":" ++ joinSep "," (canonValues e.2))) := by
    intro F
    rw [createFilterKey, hfilter F]
  rw [hkey F₁, hkey F₂]
  set A := jsSortBy leE (F₁.filter (fun e => !e.2.isEmpty)) with hA
  set B := jsSortBy leE (F₂.filter (fun e => !e.2.isEmpty)) with hB
  have hpermAB : (A.map canonEntry).Perm (B.map canonEntry) := by
    refine (List.Perm.map canonEntry (perm_jsSortBy leE _)).trans
      (hpermF.trans (List.Perm.map canonEntry (perm_jsSortBy leE _)).symm)
  have hndA : ((A.map canonEntry).map Prod.fst).Nodup := by
    have h1 : (A.map canonEntry).map Prod.fst = A.map Prod.fst := by
      rw [List.map_map]
      rfl
    rw [h1]
    have h2 : (A.map Prod.fst).Perm ((F₁.filter (fun e => !e.2.isEmpty)).map Prod.fst) :=
      List.Perm.map Prod.fst (perm_jsSortBy leE _)
    refine h2.nodup_iff.mpr ?_
    exact List.Nodup.sublist (List.Sublist.map Prod.fst (List.filter_sublist F₁)) hnd
  have hpwA : (A.map canonEntry).Pairwise (fun x y => leE x y = true) := by
    rw [List.pairwise_map]
    have := @pairwise_jsSortBy _ leE (F₁.filter (fun e => !e.2.isEmpty))
      (fun a _ b _ => jsStringLe_total a.1 b.1)
      (fun a _ b _ c _ h₁ h₂ => jsStringLe_trans h₁ h₂)
    rw [← hA] at this
    exact List.Pairwise.imp (fun h => h) this
  have hpwB : (B.map canonEntry).Pairwise (fun x y => leE x y = true) := by
    rw [List.pairwise_map]
    have := @pairwise_jsSortBy _ leE (F₂.filter (fun e => !e.2.isEmpty))
      (fun a _ b _ => jsStringLe_total a.1 b.1)
      (fun a _ b _ c _ h₁ h₂ => jsStringLe_trans h₁ h₂)
    rw [← hB] at this
    exact List.Pairwise.imp (fun h => h) this
  have heq : A.map canonEntry = B.map canonEntry := by
    refine eq_of_perm_of_pairwise hpermAB hpwA hpwB ?_
    intro a ha b hb hle₁ hle₂
    exact eq_of_fst_eq_of_nodup_keys hndA ha hb (jsStringLe_antisymm hle₁ hle₂)
  have hser : ∀ l : List (String × List String),
      l.map (fun e => e.1 ++ ":" ++ joinSep "," (canonValues e.2)) =
        (l.map canonEntry).map (fun e => e.1 ++ ":" ++ joinSep "," e.2) := by
    intro l
    rw [List.map_map]
    refine List.map_congr_left (fun e _ => ?_)
    simp [canonEntry, canonValues]
  rw [hser A, hser B, heq]

/-- **C7** (witness): two concrete states with permuted entry and value order
produce the identical key string. -/
theorem claim_C7_witness :
    (([("b", ["2", "1"]), ("a", ["x"])] : FilterState).map canonEntry).Perm
      (([("a", ["x"]), ("b", ["1", "2"])] : FilterState).map canonEntry) ∧
    (fsKeys [("b", ["2", "1"]), ("a", ["x"])]).Nodup ∧
    createFilterKey [("b", ["2", "1"]), ("a", ["x"])] none =
      createFilterKey [("a", ["x"]), ("b", ["1", "2"])] none :=
  ⟨by decide, by decide,
    claim_C7_filterKey_canonical _ _ (by decide) (by decide)⟩

/-! ## Claim C9: `precomputeFilterOptions` / `getFilterOptions`
(UltraFastFilterManager, lines 59–84 and 190–196) -/

/-- A facet/filter option `{ value, label, count }`. -/
structure FilterOption where
  value : String
  label : String
  count : Nat
deriving DecidableEq, Repr

/-- JS `Set` built from an array of numbers: first-occurrence order. -/
def dedupFrom (seen : List Int) : List Int → List Int
  | [] => []
  | x :: xs => if x ∈ seen then dedupFrom seen xs else x :: dedupFrom (x :: seen) xs

/-- `Array.from(new Set(values))`. -/
def listDedupInt (l : List Int) : List Int := dedupFrom [] l

/-- JS `Math.ceil(n / d)` on naturals (`d > 0`). -/
def jsCeilDiv (n d : Nat) : Nat := (n + d - 1) / d

/-- `createNumericFilterOptions` (UltraFastFilterManager, lines 86–188).
IEEE floats are modelled as exact rationals (the float `value` strings of the
large-range bucket branch are rendered by `toString ℚ`, not JS float
formatting; no verified property depends on that branch).  Bucket counts in
the sequential branch use truncated `Nat` subtraction, which agrees with JS
because `bucketEnd ≥ bucketStart` for every generated bucket. -/
def createNumericFilterOptions (data : List Row) (column : String) : List FilterOption :=
  let values := data.filterMap (fun r => rowNum r column)
  match values with
  | [] => []
  | v₀ :: vrest =>
    let minV := vrest.foldl min v₀
    let maxV := vrest.foldl max v₀
    let range := maxV - minV
    let dataSize := data.length
    let uniq := listDedupInt (v₀ :: vrest)
    if 10 * uniq.length > 9 * dataSize ∧ dataSize > 1000 then
      let bucketSize := max 1000 (jsCeilDiv dataSize 20)
      let maxBuckets := jsCeilDiv dataSize bucketSize
      if maxBuckets > 100 then []
      else (List.range maxBuckets).map (fun i =>
        let bucketStart := i * bucketSize + 1
        let bucketEnd := min ((i + 1) * bucketSize) dataSize
        let count := bucketEnd - bucketStart + 1
        let label := toString bucketStart ++ "-" ++ toString bucketEnd
        FilterOption.mk label label count)
    else if range ≤ 100 then
      let sortedUniq := jsSortBy (fun a b : Int => decide (a ≤ b)) uniq
      (sortedUniq.take 50).map (fun v =>
        let count := (data.filter (fun r => rowNum r column == some v)).length
        FilterOption.mk (toString v) (toString v) count)
    else
      let bucketCount : Nat :=
        if dataSize > 100000 then 30 else if dataSize > 50000 then 25 else 20
      let bucketSize : ℚ := (range : ℚ) / (bucketCount : ℚ)
      (List.range bucketCount).filterMap (fun i =>
        let bucketStart : ℚ := (minV : ℚ) + (i : ℚ) * bucketSize
        let bucketEnd : ℚ := (minV : ℚ) + ((i : ℚ) + 1) * bucketSize
        let count := (data.filter (fun r =>
          match rowNum r column with
          | some x => decide (bucketStart ≤ (x : ℚ)) && decide ((x : ℚ) < bucketEnd)
          | none => false)).length
        if count > 0 then
          some (FilterOption.mk (toString bucketStart ++ "-" ++ toString bucketEnd)
            (if i = bucketCount - 1 then
              toString (Int.floor bucketStart) ++ "-" ++ toString (Int.floor bucketEnd)
            else
              toString (Int.floor bucketStart) ++ "-" ++ toString (Int.floor (bucketEnd - 1)))
            count)
        else none)

/-- The final count-descending sort of `precomputeFilterOptions`
(`options.sort((a, b) => (b.count || 0) - (a.count || 0))`). -/
def sortByCountDesc (options : List FilterOption) : List FilterOption :=
  jsSortBy (fun a b => decide (b.count ≤ a.count)) options

/-- `precomputeFilterOptions` restricted to one column: numeric columns get
range-based options; other columns get one option per value of the first 100
index entries (`entries.slice(0, 100)`), with `count = indices.size`;
both are then sorted by count descending. -/
def precomputeColumnOptions (data : List Row) (column : String) (ci : ColIndex) :
    List FilterOption :=
  sortByCountDesc
    (if column ∈ numericColumns then createNumericFilterOptions data column
     else (ci.take 100).map (fun p => FilterOption.mk p.1 p.1 p.2.length))

/-- `UltraFastFilterManager.getFilterOptions`: the precomputed option list of a
column (`this.filterCache.get(column) || []`), empty for a never-indexed
column. -/
def getFilterOptions (data : List Row) (column : String) : List FilterOption :=
  match diGet (createUltraFastIndexes data) column with
  | some ci => precomputeColumnOptions data column ci
  | none => []

/-! ### Per-column key uniqueness of the built index -/

theorem ciAdd_keys {ci : ColIndex} {v : String} {i : Nat} :
    (ciAdd ci v i).map Prod.fst =
      if v ∈ ci.map Prod.fst then ci.map Prod.fst else ci.map Prod.fst ++ [v] := by
  induction ci with
  | nil => simp [ciAdd]
  | cons p rest ih =>
    obtain ⟨v', s⟩ := p
    by_cases hv : v' = v
    · subst hv
      simp [ciAdd]
    · rw [show ciAdd ((v', s) :: rest) v i = (v', s) :: ciAdd rest v i from by
        simp [ciAdd, hv]]
      by_cases hm : v ∈ rest.map Prod.fst
      · rw [List.map_cons, ih, if_pos hm,
          if_pos (by simp [hm]), List.map_cons]
      · rw [List.map_cons, ih, if_neg hm,
          if_neg (by
            simp only [List.map_cons, List.mem_cons]
            rintro (h | h)
            · exact hv h.symm
            · exact hm h),
          List.map_cons, List.cons_append]

theorem ciAdd_keys_nodup {ci : ColIndex} {v : String} {i : Nat}
    (h : (ci.map Prod.fst).Nodup) : ((ciAdd ci v i).map Prod.fst).Nodup := by
  rw [ciAdd_keys]
  by_cases hv : v ∈ ci.map Prod.fst
  · rw [if_pos hv]
    exact h
  · rw [if_neg hv]
    refine List.Nodup.append h (List.nodup_singleton v) ?_
    intro a ha hav
    rw [List.mem_singleton] at hav
    exact hv (hav ▸ ha)

theorem diGet_diAdd {di : DataIndex} {c c' v : String} {i : Nat} :
    diGet (diAdd di c v i) c' =
      if c' = c then some (ciAdd ((diGet di c).getD []) v i) else diGet di c' := by
  induction di with
  | nil =>
    by_cases hc : c' = c
    · subst hc
      simp [diAdd, diGet]
    · simp only [diAdd, diGet]
      rw [if_neg (fun h : c = c' => hc h.symm), if_neg hc]
  | cons p rest ih =>
    obtain ⟨c₀, ci₀⟩ := p
    by_cases h0 : c₀ = c
    · subst h0
      rw [show diAdd ((c₀, ci₀) :: rest) c₀ v i = (c₀, ciAdd ci₀ v i) :: rest from by
        simp [diAdd]]
      rw [show diGet ((c₀, ci₀) :: rest) c₀ = some ci₀ from by
        rw [diGet]; exact if_pos rfl]
      by_cases hc : c' = c₀
      · subst hc
        rw [diGet, if_pos rfl, if_pos rfl]
        rfl
      · rw [diGet, if_neg (fun h : c₀ = c' => hc h.symm), if_neg hc,
          show diGet ((c₀, ci₀) :: rest) c' = diGet rest c' from by
            rw [diGet]; exact if_neg (fun h : c₀ = c' => hc h.symm)]
    · rw [show diAdd ((c₀, ci₀) :: rest) c v i = (c₀, ci₀) :: diAdd rest c v i from by
        simp [diAdd, h0]]
      by_cases hc : c₀ = c'
      · subst hc
        rw [diGet, if_pos rfl, if_neg (fun h : c₀ = c => h0 h),
          show diGet ((c₀, ci₀) :: rest) c₀ = some ci₀ from by
            rw [diGet]; exact if_pos rfl]
      · rw [diGet, if_neg hc, ih,
          show diGet ((c₀, ci₀) :: rest) c = diGet rest c from by
            rw [diGet]; exact if_neg h0,
          show diGet ((c₀, ci₀) :: rest) c' = diGet rest c' from by
            rw [diGet]; exact if_neg hc]

/-- Every column index reachable from `di` has duplicate-free value keys. -/
def ColKeysNodup (di : DataIndex) : Prop :=
  ∀ c ci, diGet di c = some ci → (ci.map Prod.fst).Nodup

theorem colKeysNodup_nil : ColKeysNodup [] := by
  intro c ci h
  simp [diGet] at h

theorem colKeysNodup_diAdd {di : DataIndex} {c v : String} {i : Nat}
    (h : ColKeysNodup di) : ColKeysNodup (diAdd di c v i) := by
  intro c' ci' hget
  rw [diGet_diAdd] at hget
  split at hget
  · obtain rfl : ciAdd ((diGet di c).getD []) v i = ci' := by simpa using hget
    rcases hdi : diGet di c with - | ci₀
    · exact @ciAdd_keys_nodup [] v i List.nodup_nil
    · exact ciAdd_keys_nodup (h c ci₀ hdi)
  · exact h c' ci' hget

theorem colKeysNodup_indexRow {di : DataIndex} {r : Row} {idx : Nat}
    (h : ColKeysNodup di) : ColKeysNodup (indexRow di r idx) := by
  rw [indexRow]
  generalize rowKeys r = ks
  induction ks generalizing di with
  | nil => exact h
  | cons k rest ih => exact ih (colKeysNodup_diAdd h)

theorem colKeysNodup_indexRowsFrom :
    ∀ (data : List Row) (idx : Nat) (di : DataIndex), ColKeysNodup di →
      ColKeysNodup (indexRowsFrom data idx di) := by
  intro data
  induction data with
  | nil => exact fun idx di h => h
  | cons r rest ih =>
    intro idx di h
    exact ih (idx + 1) _ (colKeysNodup_indexRow h)

theorem colKeysNodup_createUltraFastIndexes {data : List Row} :
    ColKeysNodup (createUltraFastIndexes data) :=
  colKeysNodup_indexRowsFrom data 0 [] colKeysNodup_nil

theorem get_not_mem_take_of_nodup {α : Type} {l : List α} (h : l.Nodup)
    {n : Nat} (hn : n < l.length) : l.get ⟨n, hn⟩ ∉ l.take n := by
  intro hmem
  have hdisj : (l.take n).Disjoint (l.drop n) := by
    have h2 : (l.take n ++ l.drop n).Nodup := by rwa [List.take_append_drop]
    exact (List.nodup_append.mp h2).2.2
  have hdrop : l.get ⟨n, hn⟩ ∈ l.drop n := by
    rw [List.drop_eq_get_cons hn]
    exact List.mem_cons_self _ _
  exact hdisj hmem hdrop

/-- **C9**: for a non-numeric column, the precomputed option list returned by
`getFilterOptions` has at most 100 options; its options are exactly (up to the
final count-descending reordering) the first 100 entries of the column's
inverted index in insertion order; and when the column has more than 100
distinct stringified values, some indexed value is offered by no option. -/
theorem claim_C9_options_truncated (data : List Row) (column : String)
    (hn : column ∉ numericColumns) :
    (getFilterOptions data column).length ≤ 100 ∧
    (getFilterOptions data column).Perm
      ((((diGet (createUltraFastIndexes data) column).getD []).take 100).map
        (fun p => FilterOption.mk p.1 p.1 p.2.length)) ∧
    (100 < ((diGet (createUltraFastIndexes data) column).getD []).length →
      ∃ p ∈ (diGet (createUltraFastIndexes data) column).getD [],
        ∀ o ∈ getFilterOptions data column, o.value ≠ p.1) := by
  rcases hdi : diGet (createUltraFastIndexes data) column with - | ci
  · refine ⟨?_, ?_, ?_⟩
    · simp [getFilterOptions, hdi]
    · simp [getFilterOptions, hdi]
    · intro h
      simp at h
  · have hopts : getFilterOptions data column =
        sortByCountDesc ((ci.take 100).map (fun p => FilterOption.mk p.1 p.1 p.2.length)) := by
      simp only [getFilterOptions, hdi, precomputeColumnOptions]
      rw [if_neg hn]
    have hperm : (getFilterOptions data column).Perm
        ((ci.take 100).map (fun p => FilterOption.mk p.1 p.1 p.2.length)) := by
      rw [hopts]
      exact perm_jsSortBy _ _
    refine ⟨?_, ?_, ?_⟩
    · rw [hperm.length_eq, List.length_map, List.length_take]
      exact min_le_left _ _
    · simpa using hperm
    · intro h100
      have hplt : 100 < ci.length := by simpa using h100
      set p := ci.get ⟨100, hplt⟩ with hp
      refine ⟨p, List.get_mem ci 100 hplt, ?_⟩
      intro o ho hval
      obtain ⟨q, hq, rfl⟩ := List.mem_map.mp (hperm.mem_iff.mp ho)
      have hkeys : (ci.map Prod.fst).Nodup :=
        colKeysNodup_createUltraFastIndexes column ci hdi
      have hqci : q ∈ ci := List.mem_of_mem_take hq
      have hpq : q = p :=
        eq_of_fst_eq_of_nodup_keys hkeys hqci (List.get_mem ci 100 hplt) hval
      have hptake : p ∈ ci.take 100 := hpq ▸ hq
      have hmap : (ci.take 100).map Prod.fst = (ci.map Prod.fst).take 100 :=
        List.map_take Prod.fst ci 100
      have hpfst : p.1 ∈ (ci.map Prod.fst).take 100 := by
        rw [← hmap]
        exact List.mem_map_of_mem Prod.fst hptake
      have h100' : 100 < (ci.map Prod.fst).length := by simpa using hplt
      have hget : (ci.map Prod.fst).get ⟨100, h100'⟩ = p.1 := by
        rw [hp]
        simp
      rw [← hget] at hpfst
      exact get_not_mem_take_of_nodup hkeys h100' hpfst

/-- 101 distinct two-letter strings, used as a dataset exceeding the
100-option cap. -/
def wideNames : List String :=
  ["aa", "ab", "ac", "ad", "ae", "af", "ag", "ah", "ai", "aj", "ak", "al", "am",
   "an", "ao", "ap", "aq", "ar", "as", "at", "au", "av", "aw", "ax", "ay", "az",
   "ba", "bb", "bc", "bd", "be", "bf", "bg", "bh", "bi", "bj", "bk", "bl", "bm",
   "bn", "bo", "bp", "bq", "br", "bs", "bt", "bu", "bv", "bw", "bx", "by", "bz",
   "ca", "cb", "cc", "cd", "ce", "cf", "cg", "ch", "ci", "cj", "ck", "cl", "cm",
   "cn", "co", "cp", "cq", "cr", "cs", "ct", "cu", "cv", "cw", "cx", "cy", "cz",
   "da", "db", "dc", "dd", "de", "df", "dg", "dh", "di", "dj", "dk", "dl", "dm",
   "dn", "do", "dp", "dq", "dr", "ds", "dt", "du", "dv", "dw"]

/-- A 101-row dataset whose `name` column has 101 distinct values. -/
def wideData : List Row := wideNames.map (fun s => [("name", JSValue.str s)])

/-- **C9** (witness): the truncation properties at the concrete 101-value
dataset and non-numeric column `name`. -/
theorem claim_C9_witness :
    ("name" ∉ numericColumns) ∧
    ((getFilterOptions wideData "name").length ≤ 100 ∧
      (getFilterOptions wideData "name").Perm
        ((((diGet (createUltraFastIndexes wideData) "name").getD []).take 100).map
          (fun p => FilterOption.mk p.1 p.1 p.2.length)) ∧
      (100 < ((diGet (createUltraFastIndexes wideData) "name").getD []).length →
        ∃ p ∈ (diGet (createUltraFastIndexes wideData) "name").getD [],
          ∀ o ∈ getFilterOptions wideData "name", o.value ≠ p.1)) :=
  ⟨by decide, claim_C9_options_truncated wideData "name" (by decide)⟩

/-! ## `filterLogic.ts`: `buildOptimizedFilterIndex`, `applyFilters`,
`getAvailableFilterOptions`

`buildOptimizedFilterIndex` (lines 22–140) seeds one (empty) column map per
key of the *first* row, then inserts every row's `Object.entries`; inserting a
value for a column absent from the first row dereferences `undefined` and
throws, which the embedding models as `none`.  The global index cache is
bypassed (the pure build), and the `> BATCH_SIZE` branch performs the same
inserts in the same order as the direct branch (its `setTimeout` yield has no
effect on the result), so both branches are modelled by one loop. -/

/-- The inferred data type of a column (`'number' | 'string'`). -/
inductive ColType where
  | number
  | string
deriving DecidableEq, Repr

/-- Per-column statistics of `OptimizedFilterIndex`. -/
structure ColumnStats where
  uniqueCount : Nat
  mostCommon : String
  dataType : ColType
deriving DecidableEq, Repr

/-- The enhanced filter index of `filterLogic.ts`. -/
structure OptimizedFilterIndex where
  columnIndices : DataIndex
  rowCount : Nat
  columnStats : List (String × ColumnStats)
deriving DecidableEq, Repr

/-- `columnStats.get(c)`. -/
def stGet : List (String × ColumnStats) → String → Option ColumnStats
  | [], _ => none
  | (c', s) :: rest, c => if c' = c then some s else stGet rest c

/-- Update the first entry keyed `c` (total counterpart of the insert; the
insert itself is `diInsertExisting`, which fails when `c` is absent). -/
def diUpdFirst : DataIndex → String → String → Nat → DataIndex
  | [], _, _, _ => []
  | (c', ci) :: rest, c, v, i =>
    if c' = c then (c', ciAdd ci v i) :: rest
    else (c', ci) :: diUpdFirst rest c v i

/-- `columnIndices.get(column)!....add(rowIndex)`: insert into the existing
column map, or throw (`none`) when the column was never seeded. -/
def diInsertExisting (di : DataIndex) (c v : String) (i : Nat) : Option DataIndex :=
  if c ∈ di.map Prod.fst then some (diUpdFirst di c v i) else none

/-- Insert one row's `Object.entries` at position `idx`. -/
def entriesInsert (di : DataIndex) (r : Row) (idx : Nat) : Option DataIndex :=
  r.foldl (fun acc p => acc.bind (fun di => diInsertExisting di p.1 p.2.toStr idx))
    (some di)

/-- The row loop of `buildOptimizedFilterIndex`. -/
def buildRows : List Row → Nat → DataIndex → Option DataIndex
  | [], _, di => some di
  | r :: rest, idx, di => (entriesInsert di r idx).bind (buildRows rest (idx + 1))

/-- The type-sampling loop (lines 44–52): a column is numeric when none of the
first `min(100, length)` rows has a `NaN` value for it (the loop breaks at the
first `NaN`). -/
def isNumericSample (data : List Row) (c : String) : Bool :=
  (data.take 100).all (fun r => (rowNum r c).isSome)

/-- The most common value of a column (lines 102–110). -/
def mostCommonOf (ci : ColIndex) : String :=
  (ci.foldl (fun acc p => if p.2.length > acc.2 then (p.1, p.2.length) else acc)
    ("", 0)).1

/-- `buildOptimizedFilterIndex` (pure, cache bypassed). -/
def buildOptimizedFilterIndex (data : List Row) : Option OptimizedFilterIndex :=
  match data with
  | [] => some ⟨[], 0, []⟩
  | r₀ :: _ =>
    (buildRows data 0 ((rowKeys r₀).map (fun c => (c, ([] : ColIndex))))).map
      (fun di =>
        ⟨di, data.length,
          di.map (fun p =>
            (p.1, ColumnStats.mk p.2.length (mostCommonOf p.2)
              (if isNumericSample data p.1 then ColType.number else ColType.string)))⟩)

/-- The selectivity comparator of `applyFilters` (lines 168–179), as a `≤`
test: `selectivityA - selectivityB ≤ 0`, treating missing stats as equal
(comparator result `0`); selectivities are exact rationals. -/
def cmpFilterEntry (idx : OptimizedFilterIndex) (a b : String × List String) : Bool :=
  match stGet idx.columnStats a.1, stGet idx.columnStats b.1 with
  | some sa, some sb =>
    decide ((a.2.length : ℚ) / (sa.uniqueCount : ℚ) ≤
      (b.2.length : ℚ) / (sb.uniqueCount : ℚ))
  | _, _ => true

/-- The per-filter union of the selected values' position sets
(`columnIndices` accumulation, lines 185–193). -/
def unionLookup (ci : ColIndex) (vs : List String) : PosSet :=
  vs.foldl (fun acc v => (ciPos ci v).foldl setAdd acc) []

/-- Smaller-set-driven intersection (lines 199–203): iterate the smaller of the
two sets, keeping the members of the larger. -/
def interSmaller (va colIdx : PosSet) : PosSet :=
  if va.length < colIdx.length then va.filter (fun x => x ∈ colIdx)
  else colIdx.filter (fun x => x ∈ va)

/-- The intersection loop of the indexed `applyFilters` strategy
(lines 181–210): skip unknown columns, intersect driving the smaller set,
early-exit (returning the empty set) when the intersection dies. -/
def gfLoop (di : DataIndex) : FilterState → Option PosSet → Option PosSet
  | [], valid => valid
  | (c, vs) :: rest, valid =>
    match diGet di c with
    | none => gfLoop di rest valid
    | some ci =>
      match valid with
      | none => gfLoop di rest (some (unionLookup ci vs))
      | some va =>
        if (interSmaller va (unionLookup ci vs)).length = 0 then
          some (interSmaller va (unionLookup ci vs))
        else gfLoop di rest (some (interSmaller va (unionLookup ci vs)))

/-- `filterLogic.applyFilters` (lines 143–219): direct scan below 1000 rows,
index-based intersection (selectivity-sorted) otherwise; `none` models the
exception thrown when indexing a jagged dataset. -/
def applyFiltersLogic (data : List Row) (filters : FilterState) : Option (List Row) :=
  let active := activeEntries filters
  if active.isEmpty then some data
  else if data.length < 1000 then
    some (data.filter (fun r => active.all (fun f => f.2.contains (rowStr r f.1))))
  else
    (buildOptimizedFilterIndex data).map (fun idx =>
      match gfLoop idx.columnIndices (jsSortBy (cmpFilterEntry idx) active) none with
      | none => []
      | some valid => if valid.length = 0 then [] else valid.map (fun i => data.getD i []))

/-- `filterLogic.applyFiltersExcept` (lines 259–269). -/
def applyFiltersExceptLogic (data : List Row) (filters : FilterState)
    (excludeColumn : String) : Option (List Row) :=
  applyFiltersLogic data (objDelete filters excludeColumn)

/-- JS `valueCounts.set(v, (valueCounts.get(v) || 0) + 1)`. -/
def alBump : List (String × Nat) → String → List (String × Nat)
  | [], v => [(v, 1)]
  | (v', n) :: rest, v =>
    if v' = v then (v', n + 1) :: rest else (v', n) :: alBump rest v

/-- The validity loop of the indexed `getAvailableFilterOptions` strategy
(lines 310–329): skip empty selections and unknown columns, intersect without
early exit. -/
def availLoop (di : DataIndex) : FilterState → Option PosSet → Option PosSet
  | [], valid => valid
  | (c, vs) :: rest, valid =>
    if vs.isEmpty then availLoop di rest valid
    else
      match diGet di c with
      | none => availLoop di rest valid
      | some ci =>
        match valid with
        | none => availLoop di rest (some (unionLookup ci vs))
        | some va => availLoop di rest (some (va.filter (fun x => x ∈ unionLookup ci vs)))

/-- The facet-option value comparator (lines 288–296 and 354–361), as a `≤`
test: numeric when both values parse as numbers (`!isNaN`), `localeCompare`
otherwise. -/
def valueCmpLe (v w : String) : Bool :=
  match jsStrToNum v, jsStrToNum w with
  | some nv, some nw => decide (nv ≤ nw)
  | _, _ => jsStringLe v w

/-- The facet-option comparator: it reads only the `value` fields. -/
def optionCmpLe (a b : FilterOption) : Bool := valueCmpLe a.value b.value

/-- The per-value counts of the indexed `getAvailableFilterOptions` strategy
(lines 335–350): with no other active filters, every target value with its set
size; otherwise the intersection counts, omitting zeroes. -/
def facetValueCounts (di : DataIndex) (otherFilters : FilterState)
    (targetMap : ColIndex) : List (String × Nat) :=
  match availLoop di otherFilters none with
  | none => targetMap.map (fun p => (p.1, p.2.length))
  | some va => targetMap.filterMap (fun p =>
      if (p.2.filter (fun i => i ∈ va)).length > 0 then
        some (p.1, (p.2.filter (fun i => i ∈ va)).length)
      else none)

/-- `filterLogic.getAvailableFilterOptions` (lines 272–362): direct counting
below 1000 rows, index-based counting (omitting zero counts) otherwise, both
sorted by the numeric/lexical comparator. -/
def getAvailableFilterOptions (allData : List Row) (currentFilters : FilterState)
    (targetColumn : String) : Option (List FilterOption) :=
  if allData.length < 1000 then
    (applyFiltersExceptLogic allData currentFilters targetColumn).map
      (fun filteredData =>
        jsSortBy optionCmpLe
          (((filteredData.foldl (fun acc r => alBump acc (rowStr r targetColumn)) []).map
            (fun p => FilterOption.mk p.1 p.1 p.2))))
  else
    (buildOptimizedFilterIndex allData).map (fun idx =>
      match diGet idx.columnIndices targetColumn with
      | none => []
      | some targetMap =>
        jsSortBy optionCmpLe
          ((facetValueCounts idx.columnIndices (objDelete currentFilters targetColumn)
            targetMap).map (fun p => FilterOption.mk p.1 p.1 p.2)))

/-! ## `OptimizedFilterManager.getFilteredIndices` (lines 607–650) -/

/-- One intersection step of `getFilteredIndices`: the first column's union
set, or the previous result filtered by membership (iterating the previous
result, lines 631–641). -/
def gfiStep (result : Option PosSet) (ci : ColIndex) (vs : List String) : PosSet :=
  match result with
  | none => unionLookup ci vs
  | some r => r.filter (fun i => i ∈ unionLookup ci vs)

/-- The filter loop of `getFilteredIndices`: skip the excluded column and empty
selections, return the empty set on an unknown column, intersect (iterating
the previous result) with early exit on empty. -/
def getFilteredIndicesGo (di : DataIndex) (exclude : Option String) :
    FilterState → Option PosSet → Option PosSet
  | [], result => result
  | (c, vs) :: rest, result =>
    if some c = exclude ∨ vs = [] then getFilteredIndicesGo di exclude rest result
    else
      match diGet di c with
      | none => some []
      | some ci =>
        if (gfiStep result ci vs).length = 0 then some (gfiStep result ci vs)
        else getFilteredIndicesGo di exclude rest (some (gfiStep result ci vs))

/-- `OptimizedFilterManager.getFilteredIndices` (`null` result — no active
filters — is `none`). -/
def getFilteredIndices (di : DataIndex) (filters : FilterState)
    (exclude : Option String) : Option PosSet :=
  getFilteredIndicesGo di exclude filters none

/-! ## Claim C6 -/

/-- **C6** (counterexample): in the direct-scan strategy (datasets under 1000
rows), a facet query whose filter state references the never-indexed column
`zz` and whose target is that same never-indexed column returns one
`"undefined"` option counting every row — not the empty option list the claim
requires. -/
theorem claim_C6_counterexample :
    getAvailableFilterOptions
      [[("a", JSValue.str "x")], [("a", JSValue.str "x")], [("a", JSValue.str "x")]]
      [("zz", ["q"])] "zz" = some [FilterOption.mk "undefined" "undefined" 3] ∧
    getAvailableFilterOptions
      [[("a", JSValue.str "x")], [("a", JSValue.str "x")], [("a", JSValue.str "x")]]
      [("zz", ["q"])] "zz" ≠ some [] ∧
    (∀ r ∈ [[("a", JSValue.str "x")], [("a", JSValue.str "x")], [("a", JSValue.str "x")]],
      "zz" ∉ rowKeys r) :=
  ⟨by decide, by decide, by decide⟩

theorem getFilteredIndicesGo_unknown {di : DataIndex} :
    ∀ (F : FilterState) (acc : Option PosSet),
      (∃ e ∈ F, e.2 ≠ [] ∧ diGet di e.1 = none) →
      getFilteredIndicesGo di none F acc = some [] := by
  intro F
  induction F with
  | nil =>
    rintro acc ⟨e, he, -⟩
    simp at he
  | cons g rest ih =>
    rintro acc ⟨e, he, hne, hget⟩
    obtain ⟨c, vs⟩ := g
    rw [getFilteredIndicesGo]
    by_cases hskip : some c = (none : Option String) ∨ vs = []
    · rw [if_pos hskip]
      refine ih acc ⟨e, ?_, hne, hget⟩
      rcases List.mem_cons.mp he with rfl | he'
      · rcases hskip with h | h
        · cases h
        · exact absurd h hne
      · exact he'
    · rw [if_neg hskip]
      split
      · rfl
      · rename_i ci hdg
        have he' : e ∈ rest := by
          rcases List.mem_cons.mp he with rfl | h
          · exact absurd (hget.symm.trans hdg) (by simp)
          · exact h
        by_cases hres : (gfiStep acc ci vs).length = 0
        · rw [if_pos hres, List.length_eq_zero.mp hres]
        · rw [if_neg hres]
          exact ih _ ⟨e, he', hne, hget⟩

theorem applyFiltersLogic_small_subset {data : List Row} {G : FilterState}
    {rows : List Row} (h : data.length < 1000)
    (h' : applyFiltersLogic data G = some rows) : rows ⊆ data := by
  rw [applyFiltersLogic] at h'
  by_cases hact : (activeEntries G).isEmpty
  · rw [if_pos hact] at h'
    obtain rfl : data = rows := by simpa using h'
    exact fun a ha => ha
  · rw [if_neg hact, if_pos h] at h'
    obtain rfl : _ = rows := by simpa using h'
    exact fun a ha => (List.mem_filter.mp ha).1

theorem rowGet_eq_none {r : Row} {c : String} (h : c ∉ rowKeys r) :
    rowGet r c = none := by
  rw [rowGet, List.find?_eq_none.mpr]
  · rfl
  · intro p hp
    simp only [beq_iff_eq]
    intro hpc
    exact h (hpc ▸ List.mem_map_of_mem Prod.fst hp)

theorem foldl_alBump_single {s : String} :
    ∀ (xs : List String) (k : Nat), (∀ x ∈ xs, x = s) →
      xs.foldl alBump [(s, k)] = [(s, k + xs.length)] := by
  intro xs
  induction xs with
  | nil => intro k _; simp
  | cons x rest ih =>
    intro k hall
    obtain rfl : x = s := hall x (List.mem_cons_self _ _)
    have harith : k + 1 + rest.length = k + (rest.length + 1) := by omega
    rw [List.foldl_cons, show alBump [(x, k)] x = [(x, k + 1)] from by simp [alBump],
      ih (k + 1) (fun y hy => hall y (List.mem_cons_of_mem _ hy)),
      List.length_cons, harith]

theorem foldl_alBump_const {s : String} {xs : List String}
    (hall : ∀ x ∈ xs, x = s) :
    xs.foldl alBump [] = if xs.isEmpty then [] else [(s, xs.length)] := by
  match xs with
  | [] => rfl
  | x :: rest =>
    obtain rfl : x = s := hall x (List.mem_cons_self _ _)
    rw [List.foldl_cons, show alBump [] x = [(x, 1)] from rfl,
      foldl_alBump_single rest 1 (fun y hy => hall y (List.mem_cons_of_mem _ hy))]
    simp [Nat.add_comm]

/-- **C6** (amended): a filter state referencing never-indexed columns never
throws, and: `OptimizedFilterManager.getFilteredIndices` returns the empty
position set whenever some active filter column has no index, while
`filterLogic`'s direct facet strategy (datasets under 1000 rows) on a
never-indexed target column returns a single `"undefined"` option counting
the rows that pass the other filters — the empty option list exactly when no
row passes. -/
theorem claim_C6_unknown_column_soft (di : DataIndex) (F : FilterState)
    (data : List Row) (G : FilterState) (target : String)
    (h1 : ∃ e ∈ F, e.2 ≠ [] ∧ diGet di e.1 = none)
    (h2 : data.length < 1000)
    (h3 : ∀ r ∈ data, target ∉ rowKeys r) :
    getFilteredIndices di F none = some [] ∧
    getAvailableFilterOptions data G target =
      (applyFiltersExceptLogic data G target).map
        (fun rows => if rows.isEmpty then [] else
          [FilterOption.mk "undefined" "undefined" rows.length]) := by
  constructor
  · exact getFilteredIndicesGo_unknown F none h1
  · rw [getAvailableFilterOptions, if_pos h2]
    rcases happ : applyFiltersExceptLogic data G target with - | rows
    · rfl
    · have hsub : rows ⊆ data := applyFiltersLogic_small_subset h2 happ
      have hall : ∀ x ∈ rows.map (fun r => rowStr r target), x = "undefined" := by
        intro x hx
        obtain ⟨r, hr, rfl⟩ := List.mem_map.mp hx
        rw [rowStr, rowGet_eq_none (h3 r (hsub hr))]
      simp only [Option.map_some']
      congr 1
      rw [← List.foldl_map (fun r => rowStr r target) alBump rows [],
        foldl_alBump_const hall]
      rcases rows with - | ⟨r, rest⟩
      · rfl
      · simp only [List.isEmpty_cons, List.length_map, if_neg]
        rfl

/-- **C6** (witness): the amended behaviours at a one-row dataset with column
`a`, a filter state constraining the never-indexed column `zz`, and the
never-indexed facet target `zz`. -/
theorem claim_C6_witness :
    (∃ e ∈ [("zz", ["q"])],
      (e : String × List String).2 ≠ [] ∧
        diGet (createUltraFastIndexes [[("a", JSValue.str "x")]]) e.1 = none) ∧
    (([[("a", JSValue.str "x")]] : List Row).length < 1000) ∧
    (∀ r ∈ [[("a", JSValue.str "x")]], "zz" ∉ rowKeys r) ∧
    (getFilteredIndices (createUltraFastIndexes [[("a", JSValue.str "x")]])
        [("zz", ["q"])] none = some [] ∧
      getAvailableFilterOptions [[("a", JSValue.str "x")]] [] "zz" =
        (applyFiltersExceptLogic [[("a", JSValue.str "x")]] [] "zz").map
          (fun rows => if rows.isEmpty then [] else
            [FilterOption.mk "undefined" "undefined" rows.length])) :=
  ⟨by decide, by decide, by decide,
    claim_C6_unknown_column_soft (createUltraFastIndexes [[("a", JSValue.str "x")]])
      [("zz", ["q"])] [[("a", JSValue.str "x")]] [] "zz"
      (by decide) (by decide) (by decide)⟩

/-! ## Claim C5 -/

/-- The sort property the specification claims for facet option lists: the
values that parse as numbers appear in ascending numeric order, and the
remaining values appear in ascending lexical order. -/
def claimSortedOptions (l : List FilterOption) : Prop :=
  ((l.map FilterOption.value).filterMap jsStrToNum).Pairwise (fun a b => a ≤ b) ∧
  ((l.map FilterOption.value).filter (fun v => (jsStrToNum v).isNone)).Pairwise
    (fun a b => jsStringLe a b = true)

instance claimSortedOptionsDecidable (l : List FilterOption) :
    Decidable (claimSortedOptions l) := by
  unfold claimSortedOptions
  infer_instance

/-- **C5** (counterexample): on the three text values `"10"`, `"1a"`, `"2"`
the comparator is inconsistent (numerically `2 < 10`, but lexically
`"10" < "1a" < "2"`), and the resolver returns the options in the order
`"10"`, `"1a"`, `"2"` — the numeric values 10 and 2 are not in ascending
numeric order, refuting the claimed sortedness. -/
theorem claim_C5_counterexample :
    getAvailableFilterOptions
      [[("c", JSValue.str "10")], [("c", JSValue.str "1a")], [("c", JSValue.str "2")]]
      [] "c" =
      some [FilterOption.mk "10" "10" 1, FilterOption.mk "1a" "1a" 1,
        FilterOption.mk "2" "2" 1] ∧
    ¬claimSortedOptions [FilterOption.mk "10" "10" 1, FilterOption.mk "1a" "1a" 1,
      FilterOption.mk "2" "2" 1] :=
  ⟨by decide, by decide⟩

theorem valueCmpLe_total (v w : String) : valueCmpLe v w = true ∨ valueCmpLe w v = true := by
  rw [valueCmpLe, valueCmpLe]
  rcases hv : jsStrToNum v with - | nv <;> rcases hw : jsStrToNum w with - | nw
  · exact jsStringLe_total v w
  · exact jsStringLe_total v w
  · exact jsStringLe_total v w
  · simpa using le_total nv nw

theorem valueCmpLe_num {v w : String} {nv nw : Int} (hv : jsStrToNum v = some nv)
    (hw : jsStrToNum w = some nw) : valueCmpLe v w = true ↔ nv ≤ nw := by
  rw [valueCmpLe, hv, hw]
  simp

theorem valueCmpLe_lex {v w : String} (hv : jsStrToNum v = none) :
    valueCmpLe v w = jsStringLe v w := by
  rw [valueCmpLe, hv]

/-- The resolver's result is always the comparator-sort of some base list. -/
theorem getAvailableFilterOptions_eq_sort {data : List Row} {F : FilterState}
    {target : String} {opts : List FilterOption}
    (h : getAvailableFilterOptions data F target = some opts) :
    ∃ base, opts = jsSortBy optionCmpLe base := by
  rw [getAvailableFilterOptions] at h
  split at h
  · rcases happ : applyFiltersExceptLogic data F target with - | rows
    · rw [happ] at h
      cases h
    · rw [happ] at h
      exact ⟨_, by simpa using h.symm⟩
  · rcases hb : buildOptimizedFilterIndex data with - | idx
    · rw [hb] at h
      cases h
    · rw [hb] at h
      simp only [Option.map_some'] at h
      split at h
      · obtain rfl : opts = [] := by simpa using h.symm
        exact ⟨[], rfl⟩
      · exact ⟨_, by simpa using h.symm⟩

/-- **C5** (amended): whenever the option values are homogeneous — all parse
as numbers, or none do — the facet option list is sorted as claimed: the
numeric values ascending numerically and the non-numeric values ascending
lexically.  (On mixed value sets the comparator is inconsistent and the claim
fails — see the counterexample.) -/
theorem claim_C5_sorted_homogeneous (data : List Row) (F : FilterState)
    (target : String) (opts : List FilterOption)
    (hopts : getAvailableFilterOptions data F target = some opts)
    (hhom : (∀ o ∈ opts, (jsStrToNum o.value).isSome = true) ∨
      (∀ o ∈ opts, jsStrToNum o.value = none)) :
    claimSortedOptions opts := by
  obtain ⟨base, rfl⟩ := getAvailableFilterOptions_eq_sort hopts
  have hperm := perm_jsSortBy optionCmpLe base
  rcases hhom with hall | hnone
  · have hallb : ∀ o ∈ base, (jsStrToNum o.value).isSome = true :=
      fun o ho => hall o (hperm.mem_iff.mpr ho)
    have hpw : (jsSortBy optionCmpLe base).Pairwise
        (fun x y => optionCmpLe x y = true) := by
      refine pairwise_jsSortBy (fun a ha b hb => ?_) (fun a ha b hb c hc h₁ h₂ => ?_)
      · exact valueCmpLe_total a.value b.value
      · obtain ⟨na, hna⟩ := Option.isSome_iff_exists.mp (hallb a ha)
        obtain ⟨nb, hnb⟩ := Option.isSome_iff_exists.mp (hallb b hb)
        obtain ⟨nc, hnc⟩ := Option.isSome_iff_exists.mp (hallb c hc)
        exact (valueCmpLe_num hna hnc).mpr
          (le_trans ((valueCmpLe_num hna hnb).mp h₁) ((valueCmpLe_num hnb hnc).mp h₂))
    have hpw' : ((jsSortBy optionCmpLe base).map FilterOption.value).Pairwise
        (fun a b => valueCmpLe a b = true) :=
      List.pairwise_map.mpr (hpw.imp (fun h => h))
    constructor
    · refine List.Pairwise.filterMap jsStrToNum ?_ hpw'
      intro v w hvw x hx y hy
      rcases hv : jsStrToNum v with - | nv
      · rw [hv] at hx
        cases hx
      · rcases hw : jsStrToNum w with - | nw
        · rw [hw] at hy
          cases hy
        · rw [hv] at hx
          rw [hw] at hy
          obtain rfl : nv = x := by simpa using hx
          obtain rfl : nw = y := by simpa using hy
          exact (valueCmpLe_num hv hw).mp hvw
    · have hempty : ((jsSortBy optionCmpLe base).map FilterOption.value).filter
          (fun v => (jsStrToNum v).isNone) = [] := by
        rw [List.filter_eq_nil_iff]
        intro v hv
        obtain ⟨o, ho, rfl⟩ := List.mem_map.mp hv
        have := hall o (hperm.mem_iff.mpr (mem_jsSortBy.mp ho))
        simp only [Option.isNone_iff_eq_none]
        intro hcon
        rw [hcon] at this
        cases this
      rw [hempty]
      exact List.Pairwise.nil
  · have hnoneb : ∀ o ∈ base, jsStrToNum o.value = none :=
      fun o ho => hnone o (hperm.mem_iff.mpr ho)
    have hpw : (jsSortBy optionCmpLe base).Pairwise
        (fun x y => optionCmpLe x y = true) := by
      refine pairwise_jsSortBy (fun a ha b hb => ?_) (fun a ha b hb c hc h₁ h₂ => ?_)
      · exact valueCmpLe_total a.value b.value
      · rw [show optionCmpLe a b = jsStringLe a.value b.value from
          valueCmpLe_lex (hnoneb a ha)] at h₁
        rw [show optionCmpLe b c = jsStringLe b.value c.value from
          valueCmpLe_lex (hnoneb b hb)] at h₂
        rw [show optionCmpLe a c = jsStringLe a.value c.value from
          valueCmpLe_lex (hnoneb a ha)]
        exact jsStringLe_trans h₁ h₂
    constructor
    · rw [List.filterMap_eq_nil_iff.mpr]
      · exact List.Pairwise.nil
      · intro v hv
        obtain ⟨o, ho, rfl⟩ := List.mem_map.mp hv
        exact hnone o (hperm.mem_iff.mpr (mem_jsSortBy.mp ho))
    · have hvals : ((jsSortBy optionCmpLe base).map FilterOption.value).Pairwise
          (fun a b => valueCmpLe a b = true) :=
        List.pairwise_map.mpr (hpw.imp (fun h => h))
      refine List.Pairwise.imp_of_mem ?_
        (List.Pairwise.sublist (List.filter_sublist _) hvals)
      intro a b ha hb hab
      have hmem := List.mem_of_mem_filter ha
      obtain ⟨o, ho, rfl⟩ := List.mem_map.mp hmem
      rw [valueCmpLe_lex (hnone o (hperm.mem_iff.mpr (mem_jsSortBy.mp ho)))] at hab
      exact hab

/-- **C5** (witness): the amended sortedness at a concrete all-numeric value
set (`"5"`, `"30"`, `"4"` sort to `"4"`, `"5"`, `"30"`). -/
theorem claim_C5_witness :
    getAvailableFilterOptions
      [[("n", JSValue.str "5")], [("n", JSValue.str "30")], [("n", JSValue.str "4")]]
      [] "n" =
      some [FilterOption.mk "4" "4" 1, FilterOption.mk "5" "5" 1,
        FilterOption.mk "30" "30" 1] ∧
    claimSortedOptions [FilterOption.mk "4" "4" 1, FilterOption.mk "5" "5" 1,
      FilterOption.mk "30" "30" 1] :=
  ⟨by decide,
    claim_C5_sorted_homogeneous
      [[("n", JSValue.str "5")], [("n", JSValue.str "30")], [("n", JSValue.str "4")]]
      [] "n" _ (by decide) (Or.inl (by decide))⟩

/-! ## Claim C3: infrastructure

Generic membership and counting lemmas for the indexed facet strategy. -/

theorem mem_foldl_union {S : String → List Nat} {j : Nat} :
    ∀ (vs : List String) (acc : List Nat),
    (j ∈ vs.foldl (fun acc v => (S v).foldl setAdd acc) acc ↔
      j ∈ acc ∨ ∃ v ∈ vs, j ∈ S v) := by
  intro vs
  induction vs with
  | nil => simp
  | cons v rest ih =>
    intro acc
    rw [List.foldl_cons, ih, mem_foldl_setAdd]
    constructor
    · rintro ((h | h) | ⟨w, hw, h⟩)
      · exact Or.inl h
      · exact Or.inr ⟨v, List.mem_cons_self _ _, h⟩
      · exact Or.inr ⟨w, List.mem_cons_of_mem _ hw, h⟩
    · rintro (h | ⟨w, hw, h⟩)
      · exact Or.inl (Or.inl h)
      · rcases List.mem_cons.mp hw with rfl | hw'
        · exact Or.inl (Or.inr h)
        · exact Or.inr ⟨w, hw', h⟩

theorem mem_unionLookup {ci : ColIndex} {vs : List String} {j : Nat} :
    j ∈ unionLookup ci vs ↔ ∃ v ∈ vs, j ∈ ciPos ci v := by
  rw [unionLookup, mem_foldl_union]
  simp

theorem nodup_unionLookup {ci : ColIndex} {vs : List String} :
    (unionLookup ci vs).Nodup := by
  rw [unionLookup]
  suffices h : ∀ (ws : List String) (acc : List Nat), acc.Nodup →
      (ws.foldl (fun acc v => (ciPos ci v).foldl setAdd acc) acc).Nodup by
    exact h vs [] List.nodup_nil
  intro ws
  induction ws with
  | nil => exact fun acc h => h
  | cons w rest ih => exact fun acc h => ih _ (nodup_foldl_setAdd h)

theorem ciGet_some_mem {ci : ColIndex} {v : String} {s : PosSet}
    (h : ciGet ci v = some s) : (v, s) ∈ ci := by
  induction ci with
  | nil => cases h
  | cons p rest ih =>
    obtain ⟨v', s'⟩ := p
    rw [ciGet] at h
    by_cases hv : v' = v
    · rw [if_pos hv] at h
      obtain rfl : s' = s := by simpa using h
      exact hv ▸ List.mem_cons_self _ _
    · rw [if_neg hv] at h
      exact List.mem_cons_of_mem _ (ih h)

theorem ciPos_of_mem_nodup {ci : ColIndex} {v : String} {s : PosSet}
    (hnd : (ci.map Prod.fst).Nodup) (h : (v, s) ∈ ci) : ciPos ci v = s := by
  induction ci with
  | nil => simp at h
  | cons p rest ih =>
    obtain ⟨v', s'⟩ := p
    rw [List.map_cons, List.nodup_cons] at hnd
    rcases List.mem_cons.mp h with heq | hmem
    · cases heq
      rw [ciPos_cons, if_pos rfl]
    · have hv : v' ≠ v := by
        intro hv
        subst hv
        exact hnd.1 (by
          have := List.mem_map_of_mem Prod.fst hmem
          simpa using this)
      rw [ciPos_cons, if_neg hv]
      exact ih hnd.2 hmem

theorem mem_ciPos_exists_entry {ci : ColIndex} {v : String} {j : Nat}
    (h : j ∈ ciPos ci v) : ∃ p ∈ ci, j ∈ p.2 := by
  rw [ciPos] at h
  rcases hg : ciGet ci v with - | s
  · rw [hg] at h
    cases h
  · rw [hg] at h
    exact ⟨(v, s), ciGet_some_mem hg, by simpa using h⟩

theorem diGet_eq_none_iff {di : DataIndex} {c : String} :
    diGet di c = none ↔ c ∉ di.map Prod.fst := by
  induction di with
  | nil => simp [diGet]
  | cons p rest ih =>
    obtain ⟨c', ci⟩ := p
    rw [diGet]
    by_cases hc : c' = c
    · subst hc
      simp
    · rw [if_neg hc, ih, List.map_cons]
      constructor
      · intro h hmem
        rcases List.mem_cons.mp hmem with h' | h'
        · exact hc h'.symm
        · exact h h'
      · exact fun h hmem => h (List.mem_cons_of_mem _ hmem)

/-- Per-column position sets of a data index are duplicate-free. -/
def ColPosNodup (di : DataIndex) : Prop :=
  ∀ c ci, diGet di c = some ci → ∀ p ∈ ci, p.2.Nodup

theorem ciAdd_pos_nodup {ci : ColIndex} {v : String} {i : Nat}
    (h : ∀ p ∈ ci, (p : String × PosSet).2.Nodup) :
    ∀ p ∈ ciAdd ci v i, (p : String × PosSet).2.Nodup := by
  induction ci with
  | nil =>
    intro p hp
    rcases List.mem_cons.mp hp with rfl | hp'
    · exact List.nodup_singleton i
    · simp at hp'
  | cons q rest ih =>
    obtain ⟨v', s⟩ := q
    intro p hp
    by_cases hv : v' = v
    · rw [show ciAdd ((v', s) :: rest) v i = (v', setAdd s i) :: rest from by
        simp [ciAdd, hv]] at hp
      rcases List.mem_cons.mp hp with rfl | hp'
      · exact setAdd_nodup (h (v', s) (List.mem_cons_self _ _)) i
      · exact h p (List.mem_cons_of_mem _ hp')
    · rw [show ciAdd ((v', s) :: rest) v i = (v', s) :: ciAdd rest v i from by
        simp [ciAdd, hv]] at hp
      rcases List.mem_cons.mp hp with rfl | hp'
      · exact h (v', s) (List.mem_cons_self _ _)
      · exact ih (fun q hq => h q (List.mem_cons_of_mem _ hq)) p hp'

theorem colPosNodup_nil : ColPosNodup [] := by
  intro c ci h
  cases h

theorem colPosNodup_diAdd {di : DataIndex} {c v : String} {i : Nat}
    (h : ColPosNodup di) : ColPosNodup (diAdd di c v i) := by
  intro c' ci' hget
  rw [diGet_diAdd] at hget
  split at hget
  · obtain rfl : ciAdd ((diGet di c).getD []) v i = ci' := by simpa using hget
    rcases hdi : diGet di c with - | ci₀
    · exact ciAdd_pos_nodup (by simp)
    · exact ciAdd_pos_nodup (h c ci₀ hdi)
  · exact h c' ci' hget

theorem colPosNodup_indexRow {di : DataIndex} {r : Row} {idx : Nat}
    (h : ColPosNodup di) : ColPosNodup (indexRow di r idx) := by
  rw [indexRow]
  generalize rowKeys r = ks
  induction ks generalizing di with
  | nil => exact h
  | cons k rest ih => exact ih (colPosNodup_diAdd h)

theorem colPosNodup_indexRowsFrom :
    ∀ (data : List Row) (idx : Nat) (di : DataIndex), ColPosNodup di →
      ColPosNodup (indexRowsFrom data idx di) := by
  intro data
  induction data with
  | nil => exact fun idx di h => h
  | cons r rest ih => exact fun idx di h => ih (idx + 1) _ (colPosNodup_indexRow h)

theorem colPosNodup_createUltraFastIndexes {data : List Row} :
    ColPosNodup (createUltraFastIndexes data) :=
  colPosNodup_indexRowsFrom data 0 [] colPosNodup_nil

/-! ### The seeded build of `buildOptimizedFilterIndex` coincides with
`createUltraFastIndexes` on uniform datasets -/

theorem diAdd_keys {di : DataIndex} {c v : String} {i : Nat} :
    (diAdd di c v i).map Prod.fst =
      if c ∈ di.map Prod.fst then di.map Prod.fst else di.map Prod.fst ++ [c] := by
  induction di with
  | nil => simp [diAdd]
  | cons p rest ih =>
    obtain ⟨c₀, ci⟩ := p
    by_cases h0 : c₀ = c
    · subst h0
      simp [diAdd]
    · rw [show diAdd ((c₀, ci) :: rest) c v i = (c₀, ci) :: diAdd rest c v i from by
        simp [diAdd, h0]]
      by_cases hm : c ∈ rest.map Prod.fst
      · rw [List.map_cons, ih, if_pos hm, if_pos (by simp [hm]), List.map_cons]
      · rw [List.map_cons, ih, if_neg hm,
          if_neg (by
            simp only [List.map_cons, List.mem_cons]
            rintro (h | h)
            · exact h0 h.symm
            · exact hm h),
          List.map_cons, List.cons_append]

theorem keys_diUpdFirst {di : DataIndex} {c v : String} {i : Nat} :
    (diUpdFirst di c v i).map Prod.fst = di.map Prod.fst := by
  induction di with
  | nil => rfl
  | cons p rest ih =>
    obtain ⟨c₀, ci⟩ := p
    rw [diUpdFirst]
    split
    · rfl
    · rw [List.map_cons, List.map_cons, ih]

theorem diAdd_eq_diUpdFirst {di : DataIndex} {c v : String} {i : Nat}
    (h : c ∈ di.map Prod.fst) : diAdd di c v i = diUpdFirst di c v i := by
  induction di with
  | nil => simp at h
  | cons p rest ih =>
    obtain ⟨c₀, ci⟩ := p
    by_cases h0 : c₀ = c
    · simp [diAdd, diUpdFirst, h0]
    · rw [show diAdd ((c₀, ci) :: rest) c v i = (c₀, ci) :: diAdd rest c v i from by
        simp [diAdd, h0],
        show diUpdFirst ((c₀, ci) :: rest) c v i = (c₀, ci) :: diUpdFirst rest c v i
          from by simp [diUpdFirst, h0]]
      have hm : c ∈ rest.map Prod.fst := by
        rw [List.map_cons] at h
        rcases List.mem_cons.mp h with h' | h'
        · exact absurd h'.symm h0
        · exact h'
      rw [ih hm]

theorem rowStr_cons_self {p : String × JSValue} {rest : Row} :
    rowStr (p :: rest) p.1 = p.2.toStr := by
  rw [rowStr, rowGet]
  simp [List.find?]

theorem rowStr_cons_ne {p : String × JSValue} {rest : Row} {k : String}
    (h : k ≠ p.1) : rowStr (p :: rest) k = rowStr rest k := by
  rw [rowStr, rowStr, rowGet, rowGet]
  simp only [List.find?]
  rw [show (p.1 == k) = false from by simpa using fun he => h he.symm]

theorem foldl_diAdd_congr {i : Nat} {f g : String → String} :
    ∀ (ks : List String) (di : DataIndex), (∀ k ∈ ks, f k = g k) →
      ks.foldl (fun di c => diAdd di c (f c) i) di =
        ks.foldl (fun di c => diAdd di c (g c) i) di := by
  intro ks
  induction ks with
  | nil => intro di _; rfl
  | cons k rest ih =>
    intro di h
    rw [List.foldl_cons, List.foldl_cons, h k (List.mem_cons_self _ _),
      ih _ (fun k' hk' => h k' (List.mem_cons_of_mem _ hk'))]

theorem keys_foldl_diAdd {i : Nat} {f : String → String} :
    ∀ (ks : List String) (di : DataIndex), (∀ k ∈ ks, k ∈ di.map Prod.fst) →
      (ks.foldl (fun di c => diAdd di c (f c) i) di).map Prod.fst = di.map Prod.fst := by
  intro ks
  induction ks with
  | nil => intro di _; rfl
  | cons k rest ih =>
    intro di h
    rw [List.foldl_cons]
    have hk : (diAdd di k (f k) i).map Prod.fst = di.map Prod.fst := by
      rw [diAdd_keys, if_pos (h k (List.mem_cons_self _ _))]
    rw [ih _ (fun k' hk' => hk ▸ h k' (List.mem_cons_of_mem _ hk')), hk]

theorem entriesInsert_eq {i : Nat} :
    ∀ (r : Row) (di : DataIndex), (∀ p ∈ r, (p : String × JSValue).1 ∈ di.map Prod.fst) →
      (rowKeys r).Nodup → entriesInsert di r i = some (indexRow di r i) := by
  intro r
  induction r with
  | nil => intro di _ _; rfl
  | cons p rest ih =>
    intro di h hnd
    have hp : p.1 ∈ di.map Prod.fst := h p (List.mem_cons_self _ _)
    have hstep : diInsertExisting di p.1 p.2.toStr i = some (diAdd di p.1 p.2.toStr i) := by
      rw [diInsertExisting, if_pos hp, diAdd_eq_diUpdFirst hp]
    have hfold : entriesInsert di (p :: rest) i =
        entriesInsert (diAdd di p.1 p.2.toStr i) rest i := by
      rw [entriesInsert, List.foldl_cons, show (some di).bind
          (fun di => diInsertExisting di p.1 p.2.toStr i) =
          some (diAdd di p.1 p.2.toStr i) from by simpa using hstep]
      rfl
    rw [hfold]
    have hkeys : (diAdd di p.1 p.2.toStr i).map Prod.fst = di.map Prod.fst := by
      rw [diAdd_keys, if_pos hp]
    rw [show rowKeys (p :: rest) = p.1 :: rowKeys rest from rfl,
      List.nodup_cons] at hnd
    rw [ih _ (fun q hq => hkeys ▸ h q (List.mem_cons_of_mem _ hq)) hnd.2]
    congr 1
    rw [indexRow, indexRow, show rowKeys (p :: rest) = p.1 :: rowKeys rest from rfl,
      List.foldl_cons, rowStr_cons_self]
    exact (foldl_diAdd_congr (rowKeys rest) _
      (fun k hk => rowStr_cons_ne (fun he => hnd.1 (he ▸ hk)))).symm

theorem buildRows_eq :
    ∀ (data : List Row) (i : Nat) (di : DataIndex),
      (∀ r ∈ data, ∀ p ∈ r, (p : String × JSValue).1 ∈ di.map Prod.fst) →
      (∀ r ∈ data, (rowKeys r).Nodup) →
      buildRows data i di = some (indexRowsFrom data i di) := by
  intro data
  induction data with
  | nil => intro i di _ _; rfl
  | cons r rest ih =>
    intro i di h hnd
    rw [buildRows, entriesInsert_eq r di (h r (List.mem_cons_self _ _))
      (hnd r (List.mem_cons_self _ _))]
    have hkeys : (indexRow di r i).map Prod.fst = di.map Prod.fst := by
      rw [indexRow]
      refine keys_foldl_diAdd (rowKeys r) di (fun k hk => ?_)
      obtain ⟨p, hp, rfl⟩ := List.mem_map.mp hk
      exact h r (List.mem_cons_self _ _) p hp
    rw [Option.some_bind,
      ih (i + 1) _ (fun r' hr' q hq => hkeys ▸ h r' (List.mem_cons_of_mem _ hr') q hq)
        (fun r' hr' => hnd r' (List.mem_cons_of_mem _ hr'))]
    rfl

theorem foldl_diAdd_cons_ne {i : Nat} {f : String → String} {k : String} {X : ColIndex} :
    ∀ (ks : List String) (di : DataIndex), (∀ c ∈ ks, c ≠ k) →
      ks.foldl (fun di c => diAdd di c (f c) i) ((k, X) :: di) =
        (k, X) :: ks.foldl (fun di c => diAdd di c (f c) i) di := by
  intro ks
  induction ks with
  | nil => intro di _; rfl
  | cons c rest ih =>
    intro di h
    rw [List.foldl_cons, List.foldl_cons,
      show diAdd ((k, X) :: di) c (f c) i = (k, X) :: diAdd di c (f c) i from by
        simp [diAdd, show ¬k = c from fun he => (h c (List.mem_cons_self _ _)) he.symm],
      ih _ (fun c' hc' => h c' (List.mem_cons_of_mem _ hc'))]

theorem foldl_diAdd_seed {i : Nat} {f : String → String} :
    ∀ (ks : List String), ks.Nodup →
      ks.foldl (fun di c => diAdd di c (f c) i) (ks.map (fun c => (c, ([] : ColIndex)))) =
        ks.foldl (fun di c => diAdd di c (f c) i) [] := by
  intro ks
  induction ks with
  | nil => intro _; rfl
  | cons k rest ih =>
    intro hnd
    rw [List.nodup_cons] at hnd
    have hne : ∀ c ∈ rest, c ≠ k := fun c hc he => hnd.1 (he ▸ hc)
    rw [List.map_cons, List.foldl_cons, List.foldl_cons,
      show diAdd ((k, ([] : ColIndex)) :: rest.map (fun c => (c, ([] : ColIndex))))
          k (f k) i =
        (k, ciAdd [] (f k) i) :: rest.map (fun c => (c, ([] : ColIndex))) from by
        simp [diAdd],
      show diAdd ([] : DataIndex) k (f k) i = [(k, ciAdd [] (f k) i)] from rfl,
      foldl_diAdd_cons_ne rest _ hne, foldl_diAdd_cons_ne rest _ hne, ih hnd.2]

theorem indexRow_seed {r : Row} (hnd : (rowKeys r).Nodup) :
    indexRow ((rowKeys r).map (fun c => (c, ([] : ColIndex)))) r 0 = indexRow [] r 0 := by
  rw [indexRow, indexRow]
  exact foldl_diAdd_seed (rowKeys r) hnd

/-- On a non-empty dataset whose rows all share the same duplicate-free key
list, `buildOptimizedFilterIndex` succeeds and its column indices are exactly
`createUltraFastIndexes` of the dataset. -/
theorem buildOptimizedFilterIndex_uniform {data : List Row} {cols : List String}
    (hne : data ≠ []) (huni : ∀ r ∈ data, rowKeys r = cols) (hnd : cols.Nodup) :
    ∃ idx, buildOptimizedFilterIndex data = some idx ∧
      idx.columnIndices = createUltraFastIndexes data ∧
      idx.rowCount = data.length := by
  match data with
  | [] => exact absurd rfl hne
  | r₀ :: rest =>
    have hk₀ : rowKeys r₀ = cols := huni r₀ (List.mem_cons_self _ _)
    have hbuild : buildRows (r₀ :: rest) 0
        ((rowKeys r₀).map (fun c => (c, ([] : ColIndex)))) =
        some (indexRowsFrom (r₀ :: rest) 0
          ((rowKeys r₀).map (fun c => (c, ([] : ColIndex))))) := by
      refine buildRows_eq _ 0 _ (fun r hr p hp => ?_) (fun r hr => by
        rw [huni r hr]; exact hk₀ ▸ hnd)
      have h1 : p.1 ∈ rowKeys r := List.mem_map_of_mem Prod.fst hp
      rw [huni r hr] at h1
      rw [show ((rowKeys r₀).map (fun c => (c, ([] : ColIndex)))).map Prod.fst =
        rowKeys r₀ from by
          rw [List.map_map]
          exact List.map_id'' (fun c => rfl) (rowKeys r₀)]
      exact hk₀ ▸ h1
    have hseed : indexRowsFrom (r₀ :: rest) 0
        ((rowKeys r₀).map (fun c => (c, ([] : ColIndex)))) =
        createUltraFastIndexes (r₀ :: rest) := by
      rw [createUltraFastIndexes, indexRowsFrom, indexRowsFrom,
        indexRow_seed (hk₀ ▸ hnd)]
    rw [show buildOptimizedFilterIndex (r₀ :: rest) =
        (buildRows (r₀ :: rest) 0 ((rowKeys r₀).map (fun c => (c, ([] : ColIndex))))).map
          (fun di => ⟨di, (r₀ :: rest).length,
            di.map (fun p => (p.1, ColumnStats.mk p.2.length (mostCommonOf p.2)
              (if isNumericSample (r₀ :: rest) p.1 then ColType.number
               else ColType.string)))⟩) from rfl,
      hbuild, Option.map_some']
    exact ⟨_, rfl, hseed, rfl⟩

/-! ### Characterizing `availLoop` -/

theorem availLoop_some_spec {di : DataIndex} :
    ∀ (G : FilterState) (va : PosSet), va.Nodup →
      ∃ va', availLoop di G (some va) = some va' ∧ va'.Nodup ∧
        (∀ j, j ∈ va' ↔ j ∈ va ∧ ∀ g ∈ G, g.2 = [] ∨ diGet di g.1 = none ∨
          ∃ v ∈ g.2, j ∈ lookupPositions di g.1 v) := by
  intro G
  induction G with
  | nil =>
    intro va hva
    exact ⟨va, rfl, hva, by simp [availLoop]⟩
  | cons g rest ih =>
    intro va hva
    obtain ⟨c, vs⟩ := g
    rw [availLoop]
    by_cases hvs : vs.isEmpty
    · rw [if_pos hvs]
      obtain ⟨va', heq, hnd', hmem⟩ := ih va hva
      refine ⟨va', heq, hnd', fun j => ?_⟩
      rw [hmem j]
      constructor
      · rintro ⟨hj, hall⟩
        refine ⟨hj, fun g hg => ?_⟩
        rcases List.mem_cons.mp hg with rfl | hg'
        · exact Or.inl (by simpa [List.isEmpty_iff] using hvs)
        · exact hall g hg'
      · rintro ⟨hj, hall⟩
        exact ⟨hj, fun g hg => hall g (List.mem_cons_of_mem _ hg)⟩
    · rw [if_neg hvs]
      split
      · rename_i hdg
        obtain ⟨va', heq, hnd', hmem⟩ := ih va hva
        refine ⟨va', heq, hnd', fun j => ?_⟩
        rw [hmem j]
        constructor
        · rintro ⟨hj, hall⟩
          refine ⟨hj, fun g hg => ?_⟩
          rcases List.mem_cons.mp hg with rfl | hg'
          · exact Or.inr (Or.inl hdg)
          · exact hall g hg'
        · rintro ⟨hj, hall⟩
          exact ⟨hj, fun g hg => hall g (List.mem_cons_of_mem _ hg)⟩
      · rename_i ci hdg
        obtain ⟨va', heq, hnd', hmem⟩ :=
          ih (va.filter (fun x => x ∈ unionLookup ci vs)) (hva.filter _)
        refine ⟨va', heq, hnd', fun j => ?_⟩
        rw [hmem j, List.mem_filter]
        constructor
        · rintro ⟨⟨hj, hu⟩, hall⟩
          refine ⟨hj, fun g hg => ?_⟩
          rcases List.mem_cons.mp hg with rfl | hg'
          · obtain ⟨v, hv, hjv⟩ := mem_unionLookup.mp (by simpa using hu)
            exact Or.inr (Or.inr ⟨v, hv, by simpa [lookupPositions, hdg] using hjv⟩)
          · exact hall g hg'
        · rintro ⟨hj, hall⟩
          have hhead := hall (c, vs) (List.mem_cons_self _ _)
          rcases hhead with h | h | ⟨v, hv, hjv⟩
          · exact absurd h (by simpa [List.isEmpty_iff] using hvs)
          · rw [hdg] at h
            cases h
          · refine ⟨⟨hj, ?_⟩, fun g hg => hall g (List.mem_cons_of_mem _ hg)⟩
            simpa using mem_unionLookup.mpr
              ⟨v, hv, by simpa [lookupPositions, hdg] using hjv⟩

theorem availLoop_none_spec {di : DataIndex} :
    ∀ G : FilterState,
      (availLoop di G none = none ∧ ∀ g ∈ G, g.2 = [] ∨ diGet di g.1 = none) ∨
      (∃ va', availLoop di G none = some va' ∧ va'.Nodup ∧
        (∃ g ∈ G, g.2 ≠ [] ∧ diGet di g.1 ≠ none) ∧
        (∀ j, j ∈ va' ↔ ∀ g ∈ G, g.2 = [] ∨ diGet di g.1 = none ∨
          ∃ v ∈ g.2, j ∈ lookupPositions di g.1 v)) := by
  intro G
  induction G with
  | nil => exact Or.inl ⟨rfl, by simp⟩
  | cons g rest ih =>
    obtain ⟨c, vs⟩ := g
    rw [availLoop]
    by_cases hvs : vs.isEmpty
    · rw [if_pos hvs]
      rcases ih with ⟨heq, hall⟩ | ⟨va', heq, hnd', heff, hmem⟩
      · refine Or.inl ⟨heq, fun g hg => ?_⟩
        rcases List.mem_cons.mp hg with rfl | hg'
        · exact Or.inl (by simpa [List.isEmpty_iff] using hvs)
        · exact hall g hg'
      · obtain ⟨g', hg', hg'2, hg'3⟩ := heff
        refine Or.inr ⟨va', heq, hnd', ⟨g', List.mem_cons_of_mem _ hg', hg'2, hg'3⟩,
          fun j => ?_⟩
        rw [hmem j]
        constructor
        · intro hall g hg
          rcases List.mem_cons.mp hg with rfl | hg'
          · exact Or.inl (by simpa [List.isEmpty_iff] using hvs)
          · exact hall g hg'
        · exact fun hall g hg => hall g (List.mem_cons_of_mem _ hg)
    · rw [if_neg hvs]
      split
      · rename_i hdg
        rcases ih with ⟨heq, hall⟩ | ⟨va', heq, hnd', heff, hmem⟩
        · refine Or.inl ⟨heq, fun g hg => ?_⟩
          rcases List.mem_cons.mp hg with rfl | hg'
          · exact Or.inr hdg
          · exact hall g hg'
        · obtain ⟨g', hg', hg'2, hg'3⟩ := heff
          refine Or.inr ⟨va', heq, hnd', ⟨g', List.mem_cons_of_mem _ hg', hg'2, hg'3⟩,
            fun j => ?_⟩
          rw [hmem j]
          constructor
          · intro hall g hg
            rcases List.mem_cons.mp hg with rfl | hg'
            · exact Or.inr (Or.inl hdg)
            · exact hall g hg'
          · exact fun hall g hg => hall g (List.mem_cons_of_mem _ hg)
      · rename_i ci hdg
        obtain ⟨va', heq, hnd', hmem⟩ :=
          availLoop_some_spec rest (unionLookup ci vs) nodup_unionLookup
        refine Or.inr ⟨va', heq, hnd',
          ⟨(c, vs), List.mem_cons_self _ _, by simpa [List.isEmpty_iff] using hvs,
            by rw [hdg]; simp⟩, fun j => ?_⟩
        rw [hmem j, mem_unionLookup]
        constructor
        · rintro ⟨⟨v, hv, hjv⟩, hall⟩
          intro g hg
          rcases List.mem_cons.mp hg with rfl | hg'
          · exact Or.inr (Or.inr ⟨v, hv, by simpa [lookupPositions, hdg] using hjv⟩)
          · exact hall g hg'
        · intro hall
          have hhead := hall (c, vs) (List.mem_cons_self _ _)
          rcases hhead with h | h | ⟨v, hv, hjv⟩
          · exact absurd h (by simpa [List.isEmpty_iff] using hvs)
          · rw [hdg] at h
            cases h
          · exact ⟨⟨v, hv, by simpa [lookupPositions, hdg] using hjv⟩,
              fun g hg => hall g (List.mem_cons_of_mem _ hg)⟩

/-! ### Counting lemmas -/

theorem filter_mem_length_comm {S va : List Nat} (hS : S.Nodup) (hva : va.Nodup) :
    (S.filter (fun i => i ∈ va)).length = (va.filter (fun i => i ∈ S)).length := by
  refine List.Perm.length_eq ((List.perm_ext_iff_of_nodup (hS.filter _) (hva.filter _)).mpr
    (fun j => ?_))
  simp only [List.mem_filter, decide_eq_true_eq]
  exact ⟨fun h => ⟨h.2, h.1⟩, fun h => ⟨h.2, h.1⟩⟩

theorem sum_inter_filter :
    ∀ (entries : List (String × PosSet)) (va : PosSet), va.Nodup →
      (entries.map Prod.fst).Nodup →
      (∀ p ∈ entries, (p : String × PosSet).2.Nodup) →
      (∀ j ∈ va, ∃ p ∈ entries, j ∈ (p : String × PosSet).2) →
      (∀ p ∈ entries, ∀ q ∈ entries, ∀ j : Nat, j ∈ (p : String × PosSet).2 →
        j ∈ (q : String × PosSet).2 → (p : String × PosSet).1 = q.1) →
      (entries.map (fun p => (p.2.filter (fun i => i ∈ va)).length)).sum = va.length := by
  intro entries
  induction entries with
  | nil =>
    intro va hva _ _ hcov _
    have : va = [] := by
      rw [List.eq_nil_iff_forall_not_mem]
      intro j hj
      obtain ⟨p, hp, -⟩ := hcov j hj
      simp at hp
    rw [this]
    rfl
  | cons e rest ih =>
    intro va hva hkeys hsets hcov hdisj
    obtain ⟨v, S⟩ := e
    rw [List.map_cons, List.nodup_cons] at hkeys
    have hSnd : S.Nodup := hsets (v, S) (List.mem_cons_self _ _)
    have hrest_eq : ∀ q ∈ rest,
        (q : String × PosSet).2.filter (fun i => i ∈ va) =
          q.2.filter (fun i => i ∈ va.filter (fun j => !(j ∈ S : Bool))) := by
      intro q hq
      refine List.filter_congr (fun j hj => ?_)
      by_cases hjva : j ∈ va
      · have hjS : j ∉ S := by
          intro hjS
          have := hdisj (v, S) (List.mem_cons_self _ _) q (List.mem_cons_of_mem _ hq)
            j hjS hj
          exact hkeys.1 (this ▸ List.mem_map_of_mem Prod.fst hq)
        simp [hjva, hjS]
      · simp [hjva]
    have hsum_rest : (rest.map (fun p => (p.2.filter (fun i => i ∈ va)).length)).sum =
        (va.filter (fun j => !(j ∈ S : Bool))).length := by
      rw [List.map_congr_left (fun q hq => by rw [hrest_eq q hq])]
      refine ih (va.filter (fun j => !(j ∈ S : Bool))) (hva.filter _) hkeys.2
        (fun p hp => hsets p (List.mem_cons_of_mem _ hp)) (fun j hj => ?_)
        (fun p hp q hq => hdisj p (List.mem_cons_of_mem _ hp) q (List.mem_cons_of_mem _ hq))
      obtain ⟨hjva, hjS⟩ := List.mem_filter.mp hj
      obtain ⟨p, hp, hjp⟩ := hcov j hjva
      rcases List.mem_cons.mp hp with rfl | hp'
      · simp only [Bool.not_eq_true', decide_eq_false_iff_not] at hjS
        exact absurd hjp hjS
      · exact ⟨p, hp', hjp⟩
    rw [List.map_cons, List.sum_cons, hsum_rest,
      filter_mem_length_comm hSnd hva]
    have := @List.length_eq_length_filter_add Nat va (fun i => (i ∈ S : Bool))
    omega

theorem sum_map_snd_filterMap_counts (va : PosSet) :
    ∀ entries : List (String × PosSet),
      ((entries.filterMap (fun p =>
        if (p.2.filter (fun i => i ∈ va)).length > 0 then
          some (p.1, (p.2.filter (fun i => i ∈ va)).length)
        else none)).map Prod.snd).sum =
      (entries.map (fun p => (p.2.filter (fun i => i ∈ va)).length)).sum := by
  intro entries
  induction entries with
  | nil => rfl
  | cons p rest ih =>
    rw [List.filterMap_cons, List.map_cons, List.sum_cons]
    by_cases hp : (p.2.filter (fun i => i ∈ va)).length > 0
    · rw [if_pos hp, List.map_cons, List.sum_cons, ih]
    · rw [if_neg hp, ih]
      omega

theorem sum_alBump (acc : List (String × Nat)) (v : String) :
    ((alBump acc v).map Prod.snd).sum = (acc.map Prod.snd).sum + 1 := by
  induction acc with
  | nil => rfl
  | cons p rest ih =>
    obtain ⟨v', n⟩ := p
    by_cases hv : v' = v
    · rw [show alBump ((v', n) :: rest) v = (v', n + 1) :: rest from by
        simp [alBump, hv], List.map_cons, List.sum_cons, List.map_cons, List.sum_cons]
      omega
    · rw [show alBump ((v', n) :: rest) v = (v', n) :: alBump rest v from by
        simp [alBump, hv], List.map_cons, List.sum_cons, ih, List.map_cons,
        List.sum_cons]
      omega

theorem sum_foldl_alBump :
    ∀ (xs : List String) (acc : List (String × Nat)),
      ((xs.foldl alBump acc).map Prod.snd).sum = (acc.map Prod.snd).sum + xs.length := by
  intro xs
  induction xs with
  | nil => intro acc; simp
  | cons x rest ih =>
    intro acc
    rw [List.foldl_cons, ih, sum_alBump, List.length_cons]
    omega

theorem length_filter_eq_range (p : Row → Bool) :
    ∀ data : List Row, (data.filter p).length =
      ((List.range data.length).filter (fun i => p (data.getD i []))).length := by
  intro data
  induction data with
  | nil => rfl
  | cons r rest ih =>
    rw [List.length_cons, List.range_succ_eq_map, List.filter_cons, List.filter_cons]
    have hmap : ((List.range rest.length).map (fun i => i + 1)).filter
        (fun i => p ((r :: rest).getD i [])) =
        ((List.range rest.length).filter (fun i => p (rest.getD i []))).map
          (fun i => i + 1) := by
      rw [List.filter_map]
      congr 1
    have hd0 : (r :: rest).getD 0 [] = r := rfl
    by_cases hp : p r
    · rw [if_pos hp, if_pos (by rw [hd0]; exact hp), List.length_cons, hmap,
        List.length_cons, List.length_map, ih]
    · rw [if_neg hp, if_neg (by rw [hd0]; exact hp), hmap, List.length_map, ih]

theorem activeAll_eq_rowMatches :
    ∀ (G : FilterState) (r : Row),
      ((activeEntries G).all (fun f => f.2.contains (rowStr r f.1))) = rowMatches G r := by
  intro G r
  induction G with
  | nil => rfl
  | cons g rest ih =>
    by_cases he : g.2.isEmpty
    · have h1 : activeEntries (g :: rest) = activeEntries rest := by
        simp [activeEntries, List.filter_cons, he]
      have h2 : rowMatches (g :: rest) r = rowMatches rest r := by
        simp [rowMatches, List.all_cons, he]
      rw [h1, h2]
      exact ih
    · have h1 : activeEntries (g :: rest) = g :: activeEntries rest := by
        simp [activeEntries, List.filter_cons, he]
      have h2 : rowMatches (g :: rest) r =
          (g.2.contains (rowStr r g.1) && rowMatches rest r) := by
        simp [rowMatches, List.all_cons, show g.2.isEmpty = false from by simpa using he]
      rw [h1, List.all_cons, h2, ih]

theorem applyFiltersLogic_small_eq {data : List Row} {G : FilterState}
    (h : data.length < 1000) :
    applyFiltersLogic data G = some (data.filter (rowMatches G)) := by
  by_cases hact : (activeEntries G).isEmpty
  · rw [applyFiltersLogic, if_pos hact]
    congr 1
    refine (List.filter_eq_self.mpr (fun r _ => ?_)).symm
    exact rowMatches_of_active_nil (List.isEmpty_iff.mp hact)
  · rw [applyFiltersLogic, if_neg hact, if_pos h]
    congr 1
    exact List.filter_congr (fun r _ => activeAll_eq_rowMatches G r)

theorem acceptedPositions_length {data : List Row} {G : FilterState} :
    (acceptedPositions data G).length = (data.filter (rowMatches G)).length :=
  (length_filter_eq_range (rowMatches G) data).symm

/-! ### The target column's index map -/

theorem diGet_createUltra_some {data : List Row} {cols : List String} {c : String}
    (hne : data ≠ []) (huni : ∀ r ∈ data, rowKeys r = cols) (hc : c ∈ cols) :
    ∃ tm, diGet (createUltraFastIndexes data) c = some tm := by
  match data with
  | [] => exact absurd rfl hne
  | r₀ :: rest =>
    have h0 : 0 ∈ lookupPositions (createUltraFastIndexes (r₀ :: rest)) c (rowStr r₀ c) :=
      mem_lookup_createUltraFastIndexes.mpr
        ⟨r₀, rfl, (huni r₀ (List.mem_cons_self _ _)).symm ▸ hc, rfl⟩
    rcases hdg : diGet (createUltraFastIndexes (r₀ :: rest)) c with - | tm
    · rw [lookupPositions, hdg] at h0
      simp at h0
    · exact ⟨tm, rfl⟩

theorem lookup_eq_ciPos {di : DataIndex} {c : String} {tm : ColIndex}
    (hdg : diGet di c = some tm) (v : String) :
    lookupPositions di c v = ciPos tm v := by
  rw [lookupPositions, hdg]
  rfl

theorem mem_entry_lookup {data : List Row} {c : String} {tm : ColIndex}
    (hdg : diGet (createUltraFastIndexes data) c = some tm)
    {v : String} {s : PosSet} (hp : (v, s) ∈ tm) {j : Nat} (hj : j ∈ s) :
    ∃ r, data.get? j = some r ∧ rowStr r c = v := by
  have hpos : ciPos tm v = s :=
    ciPos_of_mem_nodup (colKeysNodup_createUltraFastIndexes c tm hdg) hp
  have hl : j ∈ lookupPositions (createUltraFastIndexes data) c v := by
    rw [lookup_eq_ciPos hdg, hpos]
    exact hj
  obtain ⟨r, hget, -, hstr⟩ := mem_lookup_createUltraFastIndexes.mp hl
  exact ⟨r, hget, hstr⟩

theorem entry_disjoint_createUltra {data : List Row} {c : String} {tm : ColIndex}
    (hdg : diGet (createUltraFastIndexes data) c = some tm) :
    ∀ p ∈ tm, ∀ q ∈ tm, ∀ j : Nat, j ∈ (p : String × PosSet).2 →
      j ∈ (q : String × PosSet).2 → (p : String × PosSet).1 = q.1 := by
  rintro ⟨v, s⟩ hp ⟨w, t⟩ hq j hjp hjq
  obtain ⟨r, hget, hstr⟩ := mem_entry_lookup hdg hp hjp
  obtain ⟨r', hget', hstr'⟩ := mem_entry_lookup hdg hq hjq
  rw [hget] at hget'
  obtain rfl : r = r' := Option.some.inj hget'
  rw [show ((v, s) : String × PosSet).1 = v from rfl,
    show ((w, t) : String × PosSet).1 = w from rfl, ← hstr, ← hstr']

theorem entry_cover_createUltra {data : List Row} {cols : List String} {c : String}
    {tm : ColIndex} (hdg : diGet (createUltraFastIndexes data) c = some tm)
    (huni : ∀ r ∈ data, rowKeys r = cols) (hc : c ∈ cols)
    {j : Nat} (hj : j < data.length) :
    ∃ p ∈ tm, j ∈ (p : String × PosSet).2 := by
  have hget : data.get? j = some (data.getD j []) := get?_eq_some_getD hj
  have hmemr : data.getD j [] ∈ data := List.get?_mem hget
  have hl : j ∈ lookupPositions (createUltraFastIndexes data) c
      (rowStr (data.getD j []) c) :=
    mem_lookup_createUltraFastIndexes.mpr
      ⟨data.getD j [], hget, (huni _ hmemr).symm ▸ hc, rfl⟩
  rw [lookup_eq_ciPos hdg] at hl
  exact mem_ciPos_exists_entry hl

theorem entry_bound_createUltra {data : List Row} {c : String} {tm : ColIndex}
    (hdg : diGet (createUltraFastIndexes data) c = some tm) :
    ∀ p ∈ tm, ∀ j ∈ (p : String × PosSet).2, j < data.length := by
  rintro ⟨v, s⟩ hp j hj
  obtain ⟨r, hget, -⟩ := mem_entry_lookup hdg hp hj
  exact (List.get?_eq_some.mp hget).1

theorem rowMatches_of_all_empty {G : FilterState}
    (h : ∀ g ∈ G, (g : String × List String).2 = []) (r : Row) :
    rowMatches G r = true := by
  rw [rowMatches_iff_active]
  intro g hg
  have hgG : g ∈ G := List.mem_of_mem_filter hg
  have hne := (List.mem_filter.mp hg).2
  rw [h g hgG] at hne
  simp at hne

theorem sum_counts_small {rows : List Row} {target : String} :
    (((rows.foldl (fun acc r => alBump acc (rowStr r target)) []).map
      (fun p => FilterOption.mk p.1 p.1 p.2)).map FilterOption.count).sum = rows.length := by
  rw [List.map_map,
    show (FilterOption.count ∘ fun p : String × Nat => FilterOption.mk p.1 p.1 p.2) =
      (Prod.snd : String × Nat → Nat) from rfl,
    show rows.foldl (fun acc r => alBump acc (rowStr r target)) [] =
      (rows.map (fun r => rowStr r target)).foldl alBump [] from by rw [List.foldl_map],
    sum_foldl_alBump, List.length_map]
  simp

/-- **C3**: for every dataset whose rows share one duplicate-free key set
containing the target column and every filter-state column (the spec's "every
row has exactly one value per column"), `filterLogic.getAvailableFilterOptions`
succeeds and the sum of the `count` fields over the returned facet options
equals the number of row positions matching the filter state with the target
column's constraint removed — under both the direct-scan strategy (fewer than
1000 rows) and the index-based strategy. -/
theorem claim_C3_facet_count_sum (data : List Row) (cols : List String)
    (F : FilterState) (target : String)
    (huni : ∀ r ∈ data, rowKeys r = cols) (hnd : cols.Nodup)
    (htgt : target ∈ cols) (hF : ∀ e ∈ F, (e : String × List String).1 ∈ cols) :
    ∃ opts, getAvailableFilterOptions data F target = some opts ∧
      (opts.map FilterOption.count).sum =
        (acceptedPositions data (objDelete F target)).length := by
  by_cases hlen : data.length < 1000
  · -- direct-scan strategy: every processed row contributes to exactly one count
    have happ : applyFiltersExceptLogic data F target =
        some (data.filter (rowMatches (objDelete F target))) :=
      applyFiltersLogic_small_eq hlen
    refine ⟨jsSortBy optionCmpLe
      (((data.filter (rowMatches (objDelete F target))).foldl
        (fun acc r => alBump acc (rowStr r target)) []).map
        (fun p => FilterOption.mk p.1 p.1 p.2)), ?_, ?_⟩
    · rw [getAvailableFilterOptions, if_pos hlen, happ]
      rfl
    · rw [((perm_jsSortBy optionCmpLe _).map FilterOption.count).sum_eq, sum_counts_small,
        acceptedPositions_length]
  · -- index-based strategy
    have hne : data ≠ [] := by
      intro h
      rw [h] at hlen
      simp at hlen
    obtain ⟨idx, hbuild, hci, -⟩ := buildOptimizedFilterIndex_uniform hne huni hnd
    obtain ⟨tm, hdg⟩ := diGet_createUltra_some hne huni htgt
    have hkeysnd : (tm.map Prod.fst).Nodup :=
      colKeysNodup_createUltraFastIndexes target tm hdg
    have hsetsnd : ∀ p ∈ tm, (p : String × PosSet).2.Nodup := fun p hp =>
      colPosNodup_createUltraFastIndexes target tm hdg p hp
    have hdisj := entry_disjoint_createUltra hdg
    have hGF : ∀ g ∈ objDelete F target, (g : String × List String).1 ∈ cols :=
      fun g hg => hF g (List.mem_of_mem_filter hg)
    have hGdg : ∀ g ∈ objDelete F target,
        diGet (createUltraFastIndexes data) (g : String × List String).1 ≠ none := by
      intro g hg hnone
      obtain ⟨ci, hci'⟩ := diGet_createUltra_some hne huni (hGF g hg)
      rw [hci'] at hnone
      cases hnone
    refine ⟨jsSortBy optionCmpLe
      ((facetValueCounts (createUltraFastIndexes data) (objDelete F target) tm).map
        (fun p => FilterOption.mk p.1 p.1 p.2)), ?_, ?_⟩
    · rw [getAvailableFilterOptions, if_neg hlen, hbuild]
      simp only [Option.map_some']
      rw [hci, hdg]
    · rw [((perm_jsSortBy optionCmpLe _).map FilterOption.count).sum_eq, List.map_map,
        show (FilterOption.count ∘ fun p : String × Nat => FilterOption.mk p.1 p.1 p.2) =
          (Prod.snd : String × Nat → Nat) from rfl]
      rcases @availLoop_none_spec (createUltraFastIndexes data) (objDelete F target) with
        ⟨hal, hall⟩ | ⟨va, hal, hvand, heff, hmem⟩
      · -- no other effective filter: every row position is counted once
        have hallnil : ∀ g ∈ objDelete F target, (g : String × List String).2 = [] := by
          intro g hg
          rcases hall g hg with h | h
          · exact h
          · exact absurd h (hGdg g hg)
        rw [facetValueCounts, hal]
        show ((tm.map (fun p => (p.1, p.2.length))).map Prod.snd).sum =
          (acceptedPositions data (objDelete F target)).length
        have haccept : acceptedPositions data (objDelete F target) =
            List.range data.length := by
          rw [acceptedPositions]
          exact List.filter_eq_self.mpr
            (fun i _ => rowMatches_of_all_empty hallnil _)
        rw [haccept, List.length_range, List.map_map,
          show (Prod.snd ∘ fun p : String × PosSet => (p.1, p.2.length)) =
            (fun p : String × PosSet => p.2.length) from rfl]
        have hfilt : ∀ p ∈ tm, (p : String × PosSet).2.filter
            (fun i => i ∈ List.range data.length) = p.2 := by
          intro p hp
          refine List.filter_eq_self.mpr (fun j hj => ?_)
          simp only [List.mem_range, decide_eq_true_eq]
          exact entry_bound_createUltra hdg p hp j hj
        rw [show tm.map (fun p : String × PosSet => p.2.length) = tm.map (fun p =>
            (p.2.filter (fun i => i ∈ List.range data.length)).length) from
          List.map_congr_left (fun p hp => by rw [hfilt p hp]),
          sum_inter_filter tm (List.range data.length) (List.nodup_range _) hkeysnd hsetsnd
            (fun j hj => entry_cover_createUltra hdg huni htgt (List.mem_range.mp hj)) hdisj,
          List.length_range]
      · -- some other filter is effective: the valid set equals the accepted set
        rw [facetValueCounts, hal]
        show ((tm.filterMap (fun p =>
            if (p.2.filter (fun i => i ∈ va)).length > 0 then
              some (p.1, (p.2.filter (fun i => i ∈ va)).length)
            else none)).map Prod.snd).sum =
          (acceptedPositions data (objDelete F target)).length
        rw [sum_map_snd_filterMap_counts va tm]
        have hvabound : ∀ j ∈ va, j < data.length := by
          intro j hj
          obtain ⟨g, hg, hgne, hgdg⟩ := heff
          rcases (hmem j).mp hj g hg with h | h | ⟨v, hv, hl⟩
          · exact absurd h hgne
          · exact absurd h hgdg
          · exact lt_length_of_mem_lookup_createUltraFastIndexes hl
        have hva_acc : ∀ j, j ∈ va ↔ j ∈ acceptedPositions data (objDelete F target) := by
          intro j
          rw [mem_acceptedPositions]
          constructor
          · intro hj
            have hjlt := hvabound j hj
            refine ⟨hjlt, rowMatches_iff_active.mpr (fun g hg => ?_)⟩
            have hgG : g ∈ objDelete F target := List.mem_of_mem_filter hg
            have hgact : g.2 ≠ [] := by
              have hne' := (List.mem_filter.mp hg).2
              intro hnil
              rw [hnil] at hne'
              simp at hne'
            rcases (hmem j).mp hj g hgG with h | h | ⟨v, hv, hl⟩
            · exact absurd h hgact
            · exact absurd h (hGdg g hgG)
            · obtain ⟨r, hget, -, hstr⟩ := mem_lookup_createUltraFastIndexes.mp hl
              have hr : r = data.getD j [] := by
                have h2 := get?_eq_some_getD hjlt
                rw [hget] at h2
                exact Option.some.inj h2
              rw [← hr, hstr]
              exact hv
          · rintro ⟨hjlt, hrm⟩
            refine (hmem j).mpr (fun g hg => ?_)
            by_cases hgnil : g.2 = []
            · exact Or.inl hgnil
            · refine Or.inr (Or.inr ⟨rowStr (data.getD j []) g.1, ?_, ?_⟩)
              · have hact : g ∈ activeEntries (objDelete F target) := by
                  have hne' : (!g.2.isEmpty) = true := by
                    rcases hq : g.2 with - | ⟨a, t⟩
                    · exact absurd hq hgnil
                    · rfl
                  exact List.mem_filter.mpr ⟨hg, hne'⟩
                exact rowMatches_iff_active.mp hrm g hact
              · refine mem_lookup_createUltraFastIndexes.mpr
                  ⟨data.getD j [], get?_eq_some_getD hjlt, ?_, rfl⟩
                have hmemr : data.getD j [] ∈ data :=
                  List.get?_mem (get?_eq_some_getD hjlt)
                rw [huni _ hmemr]
                exact hGF g hg
        have hlen_eq : va.length = (acceptedPositions data (objDelete F target)).length := by
          have hand : (acceptedPositions data (objDelete F target)).Nodup :=
            (List.nodup_range _).filter _
          exact ((List.perm_ext_iff_of_nodup hvand hand).mpr hva_acc).length_eq
        rw [sum_inter_filter tm va hvand hkeysnd hsetsnd (fun j hj =>
          entry_cover_createUltra hdg huni htgt (hvabound j hj)) hdisj]
        exact hlen_eq

/-- Witness for **C3** at a concrete two-row dataset with one active filter:
the hypotheses (uniform duplicate-free keys covering the target and the filter
columns) hold and the facet counts sum to the matching-position count. -/
theorem claim_C3_witness :
    ∃ opts, getAvailableFilterOptions
        [[("a", JSValue.str "x")], [("a", JSValue.str "y")]] [("a", ["x"])] "a" =
          some opts ∧
      (opts.map FilterOption.count).sum =
        (acceptedPositions [[("a", JSValue.str "x")], [("a", JSValue.str "y")]]
          (objDelete [("a", ["x"])] "a")).length :=
  claim_C3_facet_count_sum [[("a", JSValue.str "x")], [("a", JSValue.str "y")]] ["a"]
    [("a", ["x"])] "a" (by decide) (by decide) (by decide) (by decide)

end FilterEngine
